import Mathlib

/-! SAFS striped files and external-memory matrix identity

A shallow embedding of `libsafs/safs_file.cpp` (placement strategies, the
striped logical file and its header) and of the identity pair of
`matrix/EM_dense_matrix.h`, together with the properties proved about them.

Conventions of the embedding.

* `std::vector<int>` of disk indices is a `List Nat`; a loop that fills
  `ret[i]` for `i = 0 .. n-1` is a `map` over `List.range n`.
* The `size_t` file counter of a placement group is a `Nat`: it counts calls
  of `add_file`, and the model is exact as long as fewer than `2^64` files
  have been added to one group.
* Byte counts are `Nat` and the `ssize_t` results are `Int`; the model is
  exact as long as the sizes fit the signed 64-bit range.
* `random_shuffle` is a parameter: a state-passing source of randomness.
* The primitives of one disk are a parameter (`Prims`); a concrete model of
  the disks (`FS`) is used where a property depends on what the primitives do.
* `atoi` is one of these primitives. The model of the disks reads a name as a
  mathematical integer (`atoi`), the `int` of libc for the ordinals
  `create_file` writes; `atoi_int` is the 32-bit result of glibc.
-/

namespace safs

/-! ## Placement strategies -/

/-- The source of randomness behind `random_shuffle`: from a generator state
and a list it gives the shuffled list and the next generator state. -/
structure Shuffler (ρ : Type) where
  random_shuffle : ρ → List Nat → List Nat × ρ

/-- The assumption made on `random_shuffle`: its result is a permutation of
its argument, whatever the generator state. -/
def Shuffler.Permutes {ρ : Type} (S : Shuffler ρ) : Prop :=
  ∀ (r : ρ) (l : List Nat), ((S.random_shuffle r l).1).Perm l

/-- `shuffle_disks`: fill `permute[i] = i`, then `random_shuffle` it. -/
def shuffle_disks {ρ : Type} (S : Shuffler ρ) (r : ρ) (num_disks : Nat) : List Nat × ρ :=
  S.random_shuffle r ((List.range num_disks).map (fun i => i))

/-- State of a `naive_file_group`. -/
structure naive_file_group where
  num_files : Nat
  num_disks : Nat
deriving DecidableEq, Repr

/-- Constructor `naive_file_group(conf)`. -/
def naive_file_group.init (num_disks : Nat) : naive_file_group :=
  { num_files := 0, num_disks := num_disks }

/-- `naive_file_group::add_file`: `ret[i] = i`, then `num_files++`. -/
def naive_file_group.add_file (g : naive_file_group) : List Nat × naive_file_group :=
  ((List.range g.num_disks).map (fun i => i), { g with num_files := g.num_files + 1 })

/-- State of a `rotate_file_group`. -/
structure rotate_file_group where
  num_files : Nat
  num_disks : Nat
deriving DecidableEq, Repr

/-- Constructor `rotate_file_group(conf)`. -/
def rotate_file_group.init (num_disks : Nat) : rotate_file_group :=
  { num_files := 0, num_disks := num_disks }

/-- `rotate_file_group::add_file`: `ret[i] = (num_files + i) % num_disks`,
then `num_files++`. -/
def rotate_file_group.add_file (g : rotate_file_group) : List Nat × rotate_file_group :=
  ((List.range g.num_disks).map (fun i => (g.num_files + i) % g.num_disks),
   { g with num_files := g.num_files + 1 })

/-- State of a `rand_rotate_file_group`. -/
structure rand_rotate_file_group where
  base_permutes : List (List Nat)
  rand_rotates : List (List Nat)
  num_files : Nat
deriving DecidableEq, Repr

/-- Constructor `rand_rotate_file_group(conf)`: one base permutation and one
list of rotation offsets, both drawn with `shuffle_disks`. -/
def rand_rotate_file_group.init {ρ : Type} (S : Shuffler ρ) (r : ρ) (num_disks : Nat) :
    rand_rotate_file_group × ρ :=
  let b := shuffle_disks S r num_disks
  let t := shuffle_disks S b.2 num_disks
  ({ base_permutes := [b.1], rand_rotates := [t.1], num_files := 0 }, t.2)

/-- `rand_rotate_file_group::add_file`. An index outside a vector (undefined
in C++) reads the default `0` or `[]`. -/
def rand_rotate_file_group.add_file {ρ : Type} (S : Shuffler ρ)
    (g : rand_rotate_file_group) (r : ρ) : List Nat × rand_rotate_file_group × ρ :=
  let num_disks := (g.base_permutes.headD []).length
  let base_idx := g.num_files / num_disks
  let grown : rand_rotate_file_group × ρ :=
    if base_idx ≥ g.base_permutes.length then
      let b := shuffle_disks S r num_disks
      let t := shuffle_disks S b.2 num_disks
      ({ g with base_permutes := g.base_permutes ++ [b.1],
                rand_rotates := g.rand_rotates ++ [t.1] }, t.2)
    else (g, r)
  let base := grown.1.base_permutes.getD base_idx []
  let rotate := (grown.1.rand_rotates.getD base_idx []).getD (g.num_files % num_disks) 0
  let ret := (List.range num_disks).map (fun i => base.getD ((rotate + i) % num_disks) 0)
  (ret, { grown.1 with num_files := grown.1.num_files + 1 }, grown.2)

/-- The group after `k` calls of `naive_file_group::add_file`. -/
def naive_file_group.after (g : naive_file_group) : Nat → naive_file_group
  | 0 => g
  | k + 1 => ((naive_file_group.after g k).add_file).2

/-- The group after `k` calls of `rotate_file_group::add_file`. -/
def rotate_file_group.after (g : rotate_file_group) : Nat → rotate_file_group
  | 0 => g
  | k + 1 => ((rotate_file_group.after g k).add_file).2

/-- The group and generator after `k` calls of
`rand_rotate_file_group::add_file`. -/
def rand_rotate_file_group.after {ρ : Type} (S : Shuffler ρ)
    (s : rand_rotate_file_group × ρ) : Nat → rand_rotate_file_group × ρ
  | 0 => s
  | k + 1 =>
    let p := rand_rotate_file_group.after S s k
    (rand_rotate_file_group.add_file S p.1 p.2).2

/-- A concrete generator for examples: the state is a counter and the
shuffle rotates the list by it. -/
def rotShuffler : Shuffler Nat :=
  { random_shuffle := fun r l => (l.rotate r, r + 1) }

/-- The placement strategy handed to `create_file`: the three subclasses of
`safs_file_group`. -/
inductive safs_file_group where
  | naive (g : naive_file_group)
  | rotate (g : rotate_file_group)
  | rand_rotate (g : rand_rotate_file_group)
deriving DecidableEq, Repr

/-- The virtual call `group->add_file(file)`. -/
def safs_file_group.add_file {ρ : Type} (S : Shuffler ρ) (grp : safs_file_group) (r : ρ) :
    List Nat × safs_file_group × ρ :=
  match grp with
  | .naive g => ((g.add_file).1, .naive (g.add_file).2, r)
  | .rotate g => ((g.add_file).1, .rotate (g.add_file).2, r)
  | .rand_rotate g =>
    let out := rand_rotate_file_group.add_file S g r
    (out.1, .rand_rotate out.2.1, out.2.2)

/-! ## Paths, disk descriptors and the primitives of one disk

A path string is modelled by the list of its components: the C++ expression
`a + "/" + b` is `a ++ [b]`, and the empty string is `[]`. -/

/-- A path: the list of its components. -/
abbrev Path := List String

/-- The descriptor `part_file_info`: path, disk id, node id. -/
structure part_file_info where
  file_name : Path
  disk_id : Int
  node_id : Int
deriving DecidableEq, Repr

/-- The directory, raw-file and libc primitives the logical file is written
against (`native_dir`, `native_file`, `file_exist`, `fopen`/`fwrite`/`fread`,
`atoi`), taken as a parameter over a state `σ` of the disks. A stream is named
by its path; `fwrite`/`fread` transfer one item of the given bytes/length at
the given offset and return the number of items transferred (for `fread`: the
item, or `none` when no item was read). `atoi` is the `int` libc returns for a
name; what it returns for a name whose value does not fit an `int` is left to
the instance. -/
structure Prims (σ : Type) where
  dir_exist : σ → Path → Bool
  read_all_files : σ → Path → List String
  create_dir : σ → Path → Bool × σ
  delete_dir : σ → Path → Bool × σ
  file_exist : σ → Path → Bool
  get_size : σ → Path → Int
  create_file : σ → Path → Nat → Bool × σ
  rename_to : σ → Path → Path → Bool × σ
  get_dir_name : Path → Path
  fopen_w : σ → Path → Bool × σ
  fopen_r : σ → Path → Bool
  fopen_rw : σ → Path → Bool
  fwrite : σ → Path → Nat → List UInt8 → Nat × σ
  fread : σ → Path → Nat → Nat → Option (List UInt8)
  atoi : String → Int

/-! ## libc and helper functions -/

/-- The C `isspace` in the "C" locale. -/
def isspace (c : Char) : Bool :=
  c = ' ' || c = '\t' || c = '\n' || c = Char.ofNat 11 || c = Char.ofNat 12 || c = '\r'

/-- Value of the longest run of decimal digits at the start of `cs`. -/
def digits_value (cs : List Char) : Int :=
  ((cs.takeWhile Char.isDigit).foldl (fun acc c => acc * 10 + (c.toNat - 48)) 0 : Nat)

/-- The value the C `atoi` reads, as a mathematical integer: skip white
space, read an optional sign, then decimal digits; `0` when there is no digit.
It is the result of `atoi` whenever it fits an `int`; it is not reduced to the
range of `int` (see `atoi_int`). -/
def atoi (str : String) : Int :=
  let cs := str.data.dropWhile isspace
  if cs.head? = some '-' then - digits_value cs.tail
  else if cs.head? = some '+' then digits_value cs.tail
  else digits_value cs

/-- The signed 32-bit integer with the low 32 bits of `v`. -/
def to_int32 (v : Int) : Int := (v + 2 ^ 31) % 2 ^ 32 - 2 ^ 31

/-- The `int` that `atoi` returns on a 64-bit glibc, where it is
`(int) strtol(str, NULL, 10)`: the value read saturates at the range of
`long` and is then cut to its low 32 bits. -/
def atoi_int (str : String) : Int :=
  to_int32 (max (-(2 ^ 63)) (min (2 ^ 63 - 1) (atoi str)))

/-- Modelled from the spec: `itoa` of `common.h` (not among the sources), the
decimal name of a fragment ordinal ("a small non-negative integer"). -/
def itoa (n : Nat) : String := (Nat.toDigits 10 n).asString

/-- Modelled from the spec: the macro `ROUNDUP` of `common.h` (not among the
sources), `round_up(x, base)`: the least multiple of `base` that is at least
`x`. -/
def ROUNDUP (x base : Nat) : Nat := (x + base - 1) / base * base

/-- The fields of `safs_header` as `create_file` sets them. -/
structure safs_header where
  block_size : Int
  mapping_option : Int
  writable : Bool
  num_bytes : Nat
deriving DecidableEq, Repr

/-! ## The logical file `safs_file` -/

/-- The object state of a `safs_file`; `header_file = []` is the empty string
(header path not known yet). -/
structure safs_file where
  native_dirs : List part_file_info
  name : String
  header_file : Path
deriving DecidableEq, Repr

/-- Constructor `safs_file(conf, file_name)`; `conf` is `conf.get_disks()`. -/
def safs_file.init (conf : List part_file_info) (file_name : String) : safs_file :=
  { native_dirs := conf.map (fun d =>
      { file_name := d.file_name ++ [file_name], disk_id := d.disk_id, node_id := d.node_id }),
    name := file_name,
    header_file := [] }

/-- `safs_file::erase_header_file`. -/
def erase_header_file (files : List String) : List String :=
  files.filter (fun x => x ≠ "header")

/-- The listing of a fragment directory as `exist` and `get_size` use it:
`read_all_files`, then `erase_header_file` only when more than one entry was
read. -/
def part_files {σ : Type} (P : Prims σ) (s : σ) (dir : Path) : List String :=
  let files := P.read_all_files s dir
  if files.length > 1 then erase_header_file files else files

/-- The loop of `safs_file::exist`; `part_ids` is the `std::set<int>`, kept as
a list without repetition. `none` is an early `return false`. -/
def exist_loop {σ : Type} (P : Prims σ) (s : σ) :
    List part_file_info → List Int → Option (List Int)
  | [], part_ids => some part_ids
  | d :: ds, part_ids =>
    if !P.dir_exist s d.file_name then none
    else
      let files := part_files P s d.file_name
      if files.length ≠ 1 then none
      else exist_loop P s ds (List.insert (P.atoi (files.headD "")) part_ids)

/-- `safs_file::exist`. -/
def safs_file.exist {σ : Type} (P : Prims σ) (s : σ) (f : safs_file) : Bool :=
  match exist_loop P s f.native_dirs [] with
  | none => false
  | some part_ids => if part_ids.length < f.native_dirs.length then false else true

/-- The loop of `safs_file::get_size`; `none` is a failed `assert`. -/
def size_loop {σ : Type} (P : Prims σ) (s : σ) : List part_file_info → Int → Option Int
  | [], ret => some ret
  | d :: ds, ret =>
    let local_files := part_files P s d.file_name
    if local_files.length ≠ 1 then none
    else size_loop P s ds (ret + P.get_size s (d.file_name ++ [local_files.headD ""]))

/-- `safs_file::get_size`; `none` is a failed `assert`. -/
def safs_file.get_size {σ : Type} (P : Prims σ) (s : σ) (f : safs_file) : Option Int :=
  if !f.exist P s then some (-1)
  else size_loop P s f.native_dirs 0

/-- The first loop of `safs_file::rename`: rename each fragment directory,
stop at the first failure. -/
def rename_loop {σ : Type} (P : Prims σ) (new_name : String) :
    List part_file_info → σ → Bool × σ
  | [], s => (true, s)
  | d :: ds, s =>
    let r := P.rename_to s d.file_name (P.get_dir_name d.file_name ++ [new_name])
    if !r.1 then (false, r.2) else rename_loop P new_name ds r.2

/-- `safs_file::rename`. -/
def safs_file.rename {σ : Type} (P : Prims σ) (s : σ) (f : safs_file) (new_name : String) :
    Bool × σ × safs_file :=
  if !f.exist P s then (false, s, f)
  else
    let r := rename_loop P new_name f.native_dirs s
    if !r.1 then (false, r.2, f)
    else
      (true, r.2,
        { f with
          name := new_name,
          native_dirs := f.native_dirs.map (fun d =>
            { file_name := P.get_dir_name d.file_name ++ [new_name],
              disk_id := d.disk_id, node_id := d.node_id }) })

/-- The choice of `dir_idxs` at the start of `safs_file::create_file`:
`shuffle_disks` when no group is given, `group->add_file` otherwise. -/
def choose_dir_idxs {ρ : Type} (S : Shuffler ρ) (r : ρ) (num_disks : Nat)
    (group : Option safs_file_group) : List Nat × Option safs_file_group × ρ :=
  match group with
  | none => ((shuffle_disks S r num_disks).1, none, (shuffle_disks S r num_disks).2)
  | some grp =>
    let out := grp.add_file S r
    (out.1, some out.2.1, out.2.2)

/-- The path `native_dirs[dir_idxs[i]].get_file_name()`; an index outside a
vector (undefined in C++) reads a default. -/
def dir_at (native_dirs : List part_file_info) (dir_idxs : List Nat) (i : Nat) : Path :=
  (native_dirs.getD (dir_idxs.getD i 0) { file_name := [], disk_id := 0, node_id := 0 }).file_name

/-- The loop of `safs_file::create_file` over the positions `i`; the result
is the returned flag, the state of the disks and the object (its
`header_file` is set at position 0). -/
def create_loop {σ : Type} (P : Prims σ) (header : List UInt8) (size_per_disk : Nat)
    (dir_idxs : List Nat) : List Nat → σ → safs_file → Bool × σ × safs_file
  | [], s, f => (true, s, f)
  | i :: rest, s, f =>
    let dir := dir_at f.native_dirs dir_idxs i
    let c := P.create_dir s dir
    if !c.1 then (false, c.2, f)
    else if i = 0 then
      let f1 := { f with header_file := dir ++ ["header"] }
      let o := P.fopen_w c.2 f1.header_file
      if !o.1 then (false, o.2, f1)
      else
        let w := P.fwrite o.2 f1.header_file 0 header
        if w.1 ≠ 1 then (false, w.2, f1)
        else
          let n := P.create_file w.2 (dir ++ [itoa i]) size_per_disk
          if !n.1 then (false, n.2, f1)
          else create_loop P header size_per_disk dir_idxs rest n.2 f1
    else
      let n := P.create_file c.2 (dir ++ [itoa i]) size_per_disk
      if !n.1 then (false, n.2, f)
      else create_loop P header size_per_disk dir_idxs rest n.2 f

/-- The size of one fragment in `safs_file::create_file`. -/
def size_per_disk (file_size num_disks : Nat) : Nat :=
  ROUNDUP (file_size / num_disks + (if file_size % num_disks > 0 then 1 else 0)) 512

/-- The record `safs_header header(block_size, mapping_option, true,
file_size)` that `create_file` writes. -/
def new_header (file_size : Nat) (block_size mapping_option : Int) : safs_header :=
  { block_size := block_size, mapping_option := mapping_option, writable := true,
    num_bytes := file_size }

/-- `safs_file::create_file` once `dir_idxs` is chosen. `image` is the byte
image of a header record (`sizeof(header)` bytes; the layout is not among the
sources). `none` is the division by zero of a file over no disk. -/
def safs_file.create_file {σ : Type} (P : Prims σ) (image : safs_header → List UInt8)
    (s : σ) (f : safs_file) (file_size : Nat) (block_size mapping_option : Int)
    (dir_idxs : List Nat) : Option (Bool × σ × safs_file) :=
  if f.native_dirs.length = 0 then none
  else
    let header := new_header file_size block_size mapping_option
    some (create_loop P (image header) (size_per_disk file_size f.native_dirs.length)
      dir_idxs (List.range f.native_dirs.length) s f)

/-- The loop of `safs_file::delete_file`. -/
def delete_loop {σ : Type} (P : Prims σ) : List part_file_info → σ → Bool × σ
  | [], s => (true, s)
  | d :: ds, s =>
    let r := P.delete_dir s d.file_name
    if !r.1 then (false, r.2) else delete_loop P ds r.2

/-- `safs_file::delete_file`. -/
def safs_file.delete_file {σ : Type} (P : Prims σ) (s : σ) (f : safs_file) : Bool × σ :=
  delete_loop P f.native_dirs s

/-- `safs_file::get_header_file`: the cached path, else the first fragment
directory, in roster order, that exists and holds `header`; the object caches
what was found. -/
def safs_file.get_header_file {σ : Type} (P : Prims σ) (s : σ) (f : safs_file) :
    Path × safs_file :=
  if f.header_file ≠ [] then (f.header_file, f)
  else
    match f.native_dirs.find? (fun d =>
        P.file_exist s d.file_name && P.file_exist s (d.file_name ++ ["header"])) with
    | some d => (d.file_name ++ ["header"], { f with header_file := d.file_name ++ ["header"] })
    | none => (f.header_file, f)

/-- `safs_file::set_user_metadata`, with `header_size` for
`safs_header::get_header_size()`. `none` is a failed `assert`; `fseek` to a
non-negative offset succeeds. -/
def safs_file.set_user_metadata {σ : Type} (P : Prims σ) (header_size : Nat) (s : σ)
    (f : safs_file) (data : List UInt8) : Option (Bool × σ × safs_file) :=
  let h := f.get_header_file P s
  if !P.file_exist s h.1 then none
  else if !P.fopen_rw s h.1 then some (false, s, h.2)
  else
    let w := P.fwrite s h.1 header_size data
    if w.1 ≠ 1 then some (false, w.2, h.2)
    else some (true, w.2, h.2)

/-- `safs_file::get_user_metadata`. `none` is a failed `assert`. -/
def safs_file.get_user_metadata {σ : Type} (P : Prims σ) (header_size : Nat) (s : σ)
    (f : safs_file) : Option (List UInt8 × safs_file) :=
  let h := f.get_header_file P s
  if !P.file_exist s h.1 then none
  else
    let file_size := P.get_size s h.1
    if file_size < header_size then none
    else if file_size = header_size then some ([], h.2)
    else if !P.fopen_r s h.1 then some ([], h.2)
    else
      match P.fread s h.1 header_size (file_size - header_size).toNat with
      | none => some ([], h.2)
      | some data => some (data, h.2)

/-- The first loop of `get_all_safs_files`: the union of the root listings of
all disks, a `std::set<std::string>` kept as a list without repetition. -/
def all_root_files {σ : Type} (P : Prims σ) (s : σ) (conf : List part_file_info) :
    List String :=
  conf.foldl (fun all d =>
    (P.read_all_files s d.file_name).foldl (fun acc x => List.insert x acc) all) []

/-- `get_all_safs_files(files)`: the set `files` after the call (it always
returns 0). -/
def get_all_safs_files {σ : Type} (P : Prims σ) (s : σ) (conf : List part_file_info)
    (files : List String) : List String :=
  (all_root_files P s conf).foldl (fun out x =>
    if (safs_file.init conf x).exist P s then List.insert x out else out) files

/-! ## A model of the disks

The primitives of one disk (`native_dir`, `native_file`, `file_exist`, stdio)
are not among the sources. The model below follows the collaborator interfaces
of the specification: directories that can be tested, created recursively,
deleted recursively and listed; raw files that can be tested, sized, created
with a size and renamed. -/

/-- A node of the file tree: a regular file with its bytes, or a directory
with the names `read_all_files` lists. -/
inductive Node where
  | file (bytes : List UInt8)
  | dir (entries : List String)
deriving DecidableEq, Repr

/-- Modelled from the spec: the state of the disks, the node found at each
path. -/
structure FS where
  node : Path → Option Node

/-- Replace the node at one path. -/
def FS.set (fs : FS) (p : Path) (v : Option Node) : FS :=
  { node := fun q => if q = p then v else fs.node q }

/-- Enter the last component of `p` in the listing of its parent directory. -/
def FS.link (fs : FS) (p : Path) : FS :=
  match p.getLast?, fs.node p.dropLast with
  | some x, some (.dir es) =>
    if x ∈ es then fs else fs.set p.dropLast (some (.dir (es ++ [x])))
  | _, _ => fs

/-- Remove the last component of `p` from the listing of its parent. -/
def FS.unlink (fs : FS) (p : Path) : FS :=
  match p.getLast?, fs.node p.dropLast with
  | some x, some (.dir es) => fs.set p.dropLast (some (.dir (es.filter (fun y => y ≠ x))))
  | _, _ => fs

/-- Modelled from the spec: `native_dir::exist`. -/
def FS.dir_exist (fs : FS) (p : Path) : Bool :=
  match fs.node p with
  | some (.dir _) => true
  | _ => false

/-- Modelled from the spec: `native_dir::read_all_files`, the names in a
directory. -/
def FS.read_all_files (fs : FS) (p : Path) : List String :=
  match fs.node p with
  | some (.dir es) => es
  | _ => []

/-- Modelled from the spec: `file_exist`, true of any node. -/
def FS.file_exist (fs : FS) (p : Path) : Bool :=
  (fs.node p).isSome

/-- Modelled from the spec: `native_file::get_size`, `-1` when there is no
regular file. -/
def FS.get_size (fs : FS) (p : Path) : Int :=
  match fs.node p with
  | some (.file b) => (b.length : Int)
  | _ => -1

/-- Recursive directory creation with `fuel` levels: an existing directory is
kept, a regular file in the way is a failure, a missing directory is created
after its parent. -/
def FS.mkdirs (fs : FS) (p : Path) : Nat → Option FS
  | 0 => none
  | fuel + 1 =>
    match fs.node p with
    | some (.dir _) => some fs
    | some (.file _) => none
    | none =>
      if p = [] then some (fs.set [] (some (.dir [])))
      else
        match FS.mkdirs fs p.dropLast fuel with
        | none => none
        | some fs1 => some ((fs1.set p (some (.dir []))).link p)

/-- Modelled from the spec: `native_dir::create_dir(true)`. -/
def FS.create_dir (fs : FS) (p : Path) : Bool × FS :=
  match fs.mkdirs p (p.length + 1) with
  | some fs1 => (true, fs1)
  | none => (false, fs)

/-- Modelled from the spec: `native_dir::delete_dir(true)`: the directory and
all below it are removed; it fails when there is no such directory. -/
def FS.delete_dir (fs : FS) (p : Path) : Bool × FS :=
  match fs.node p with
  | some (.dir _) =>
    (true, (FS.mk (fun q => if q.take p.length = p then none else fs.node q)).unlink p)
  | _ => (false, fs)

/-- Create or replace the regular file `p` with the given bytes; the parent
must be a directory and `p` must not be one. -/
def FS.put_file (fs : FS) (p : Path) (b : List UInt8) : Bool × FS :=
  if p = [] then (false, fs)
  else
    match fs.node p.dropLast, fs.node p with
    | some (.dir _), some (.dir _) => (false, fs)
    | some (.dir _), _ => (true, (fs.set p (some (.file b))).link p)
    | _, _ => (false, fs)

/-- Modelled from the spec: `native_file::create_file(size)`. -/
def FS.create_file (fs : FS) (p : Path) (size : Nat) : Bool × FS :=
  fs.put_file p (List.replicate size 0)

/-- Modelled from the spec: `native_file::rename`: the node and all below it
move to the new path; it fails when the source is missing, the target exists
or the parent of the target is not a directory. -/
def FS.rename_to (fs : FS) (p q : Path) : Bool × FS :=
  match fs.node p, fs.node q.dropLast, fs.node q with
  | some _, some (.dir _), none =>
    if p = [] ∨ q = [] ∨ q.take p.length = p then (false, fs)
    else
      (true,
        (((FS.mk (fun x =>
            if x.take q.length = q then fs.node (p ++ x.drop q.length)
            else if x.take p.length = p then none
            else fs.node x)).unlink p).link q))
  | _, _, _ => (false, fs)

/-- Is there a regular file at `p` (what `fopen` in a read mode needs). -/
def FS.is_file (fs : FS) (p : Path) : Bool :=
  match fs.node p with
  | some (.file _) => true
  | _ => false

/-- The C `fwrite(data, size, 1, f)` at offset `off`, followed by `fclose`.
An item of size zero is not written and the count is 0 (C standard); else the
bytes replace those at `off ..`, the file grows as needed, nothing is
truncated. -/
def FS.fwrite (fs : FS) (p : Path) (off : Nat) (data : List UInt8) : Nat × FS :=
  if data.length = 0 then (0, fs)
  else
    match fs.node p with
    | some (.file b) =>
      (1, fs.set p (some (.file
        ((b ++ List.replicate (off - b.length) 0).take off ++ data
          ++ b.drop (off + data.length)))))
    | _ => (0, fs)

/-- The C `fread(buf, len, 1, f)` at offset `off`: the item, when `len > 0`
and the file holds `len` bytes from `off`. -/
def FS.fread (fs : FS) (p : Path) (off len : Nat) : Option (List UInt8) :=
  match fs.node p with
  | some (.file b) =>
    if len = 0 ∨ b.length < off + len then none else some ((b.drop off).take len)
  | _ => none

/-- The model of the disks as an instance of the primitives. Names are read
as mathematical integers (`atoi`), which is the `int` libc returns for the
names of the ordinals `0 .. n-1` that `create_file` writes. -/
def fsPrims : Prims FS :=
  { dir_exist := FS.dir_exist
    read_all_files := FS.read_all_files
    create_dir := FS.create_dir
    delete_dir := FS.delete_dir
    file_exist := FS.file_exist
    get_size := FS.get_size
    create_file := FS.create_file
    rename_to := FS.rename_to
    get_dir_name := List.dropLast
    fopen_w := fun fs p => fs.put_file p []
    fopen_r := FS.is_file
    fopen_rw := FS.is_file
    fwrite := FS.fwrite
    fread := FS.fread
    atoi := atoi }

/-- A state of the disks given by a finite table of nodes. -/
def FS.ofList (l : List (Path × Node)) : FS :=
  { node := fun p => (l.find? (fun e => e.1 = p)).map (fun e => e.2) }

/-- A fragment directory passes the per-disk test of `exist`: it exists and
its listing, as `part_files` reads it, has exactly one entry. -/
def part_ok {σ : Type} (P : Prims σ) (s : σ) (d : part_file_info) : Prop :=
  P.dir_exist s d.file_name = true ∧ (part_files P s d.file_name).length = 1

/-- The ordinal `exist` reads for a disk: `atoi` of the entry kept. -/
def part_ordinal {σ : Type} (P : Prims σ) (s : σ) (d : part_file_info) : Int :=
  P.atoi ((part_files P s d.file_name).headD "")

/-- The integrity condition in the words of the specification: for every
disk the fragment directory exists and holds exactly one data file after
removing an optional entry named "header", and the ordinal names, parsed as
integers, are pairwise distinct across the disks. -/
def exist_spec {σ : Type} (P : Prims σ) (s : σ) (f : safs_file) : Prop :=
  (∀ d ∈ f.native_dirs, P.dir_exist s d.file_name = true ∧
      (erase_header_file (P.read_all_files s d.file_name)).length = 1) ∧
  (f.native_dirs.map (fun d =>
      P.atoi ((erase_header_file (P.read_all_files s d.file_name)).headD ""))).Nodup

/-- The rename of the directory `d`, attempted after the directories `pre`
were renamed, fails. -/
def rename_fails_at {σ : Type} (P : Prims σ) (new_name : String) (s : σ)
    (pre : List part_file_info) (d : part_file_info) : Prop :=
  (rename_loop P new_name pre s).1 = true ∧
  (P.rename_to (rename_loop P new_name pre s).2 d.file_name
      (P.get_dir_name d.file_name ++ [new_name])).1 = false

/-- The deletion of the directory `d`, attempted after the directories `pre`
were deleted, fails. -/
def delete_fails_at {σ : Type} (P : Prims σ) (s : σ)
    (pre : List part_file_info) (d : part_file_info) : Prop :=
  (delete_loop P pre s).1 = true ∧
  (P.delete_dir (delete_loop P pre s).2 d.file_name).1 = false

/-- One disk whose fragment directory of `M` holds only `header`. -/
def fsHeaderOnly : FS :=
  FS.ofList [(["mnt", "d0"], .dir ["M"]), (["mnt", "d0", "M"], .dir ["header"]),
    (["mnt", "d0", "M", "header"], .file [1, 2, 3, 4])]

/-- A roster of one disk. -/
def conf1 : List part_file_info := [{ file_name := ["mnt", "d0"], disk_id := 0, node_id := 0 }]

/-- A roster of two disks. -/
def conf2 : List part_file_info :=
  [{ file_name := ["mnt", "d0"], disk_id := 0, node_id := 0 },
   { file_name := ["mnt", "d1"], disk_id := 1, node_id := 0 }]

/-- Two disks; the fragment directory of `M` is missing on the first and
present on the second. -/
def fsHalf : FS :=
  FS.ofList [(["mnt", "d0"], .dir []), (["mnt", "d1"], .dir ["M"]),
    (["mnt", "d1", "M"], .dir ["1"]), (["mnt", "d1", "M", "1"], .file [0, 0])]

/-- Two disks holding the logical file `M`, header on the first. -/
def fsTwo : FS :=
  FS.ofList [(["mnt", "d0"], .dir ["M"]), (["mnt", "d1"], .dir ["M"]),
    (["mnt", "d0", "M"], .dir ["header", "0"]), (["mnt", "d1", "M"], .dir ["1"]),
    (["mnt", "d0", "M", "header"], .file [7, 7, 7, 7, 1, 2, 3]),
    (["mnt", "d0", "M", "0"], .file [0, 0]), (["mnt", "d1", "M", "1"], .file [0, 0])]

/-- What `create_file` leaves in the fragment directory `d` it creates at
position `i`: the data file named by the ordinal, of the fragment size, and,
at position 0 only, the header file. -/
def part_created (fs : FS) (d : Path) (i : Nat) (header : List UInt8) (size : Nat) : Prop :=
  fs.node d = some (.dir (if i = 0 then ["header", itoa i] else [itoa i])) ∧
  fs.node (d ++ [itoa i]) = some (.file (List.replicate size 0)) ∧
  fs.node (d ++ ["header"]) = (if i = 0 then some (.file header) else none)

/-- The disks are ready for a new logical file `name`: every disk root of the
roster is a directory, nothing exists at or below a fragment directory
`root/name`, and the roots of the roster are pairwise different. -/
def fresh_disks (fs : FS) (conf : List part_file_info) (name : String) : Prop :=
  (∀ r ∈ conf, ∃ es, fs.node r.file_name = some (.dir es)) ∧
  (∀ r ∈ conf, ∀ q, fs.node (r.file_name ++ [name] ++ q) = none) ∧
  (conf.map (fun d => d.file_name)).Nodup

/-- A roster of four disks. -/
def conf4 : List part_file_info :=
  [{ file_name := ["mnt", "d0"], disk_id := 0, node_id := 0 },
   { file_name := ["mnt", "d1"], disk_id := 1, node_id := 0 },
   { file_name := ["mnt", "d2"], disk_id := 2, node_id := 1 },
   { file_name := ["mnt", "d3"], disk_id := 3, node_id := 1 }]

/-- Four empty disks. -/
def fs4 : FS :=
  FS.ofList [(["mnt", "d0"], .dir []), (["mnt", "d1"], .dir []), (["mnt", "d2"], .dir []),
    (["mnt", "d3"], .dir [])]

/-- A header image for examples: the low bytes of the block size and of the
logical size, eight bytes in all. -/
def image8 (h : safs_header) : List UInt8 :=
  [UInt8.ofNat h.block_size.toNat, 0, 0, 0, UInt8.ofNat h.num_bytes, 0, 0, 0]

/-- The placement of the third file (two files added before) of a rotating
group over four disks, as `create_file` obtains it. -/
def rot4_third : List Nat :=
  (choose_dir_idxs rotShuffler 0 4
    (some (.rotate ((rotate_file_group.init 4).after 2)))).1

/-- The permutation `rand_rotate_file_group::add_file` returns for file `k`
(the call made after `k` earlier calls) of the instance constructed over
`num_disks` disks with the generator state `r`. -/
def rand_rotate_file {ρ : Type} (S : Shuffler ρ) (r : ρ) (num_disks k : Nat) : List Nat :=
  (rand_rotate_file_group.add_file S
    (rand_rotate_file_group.after S (rand_rotate_file_group.init S r num_disks) k).1
    (rand_rotate_file_group.after S (rand_rotate_file_group.init S r num_disks) k).2).1

/-- The model of the disks with the `int` of glibc for `atoi`. -/
def fsPrimsInt : Prims FS := { fsPrims with atoi := atoi_int }

/-- Two disks whose fragment directories of `M` hold the data files `0` and
`4294967296`: two names that `atoi` of glibc reads as the same `int`. -/
def fsWrap : FS :=
  FS.ofList [(["mnt", "d0"], .dir ["M"]), (["mnt", "d1"], .dir ["M"]),
    (["mnt", "d0", "M"], .dir ["0"]), (["mnt", "d1", "M"], .dir ["4294967296"]),
    (["mnt", "d0", "M", "0"], .file [0, 0]),
    (["mnt", "d1", "M", "4294967296"], .file [0, 0])]

/-- The representation invariant of a `rand_rotate_file_group` over `n`
disks: the two vectors have the same, non-zero number of entries, every entry
is a permutation of `0 .. n-1`, and a group of `n` files has been opened for
every file counted so far. -/
def RRInv (n : Nat) (g : rand_rotate_file_group) : Prop :=
  g.base_permutes ≠ [] ∧ g.rand_rotates.length = g.base_permutes.length ∧
  (∀ b ∈ g.base_permutes, b.Perm (List.range n)) ∧
  (∀ t ∈ g.rand_rotates, t.Perm (List.range n)) ∧
  g.num_files ≤ n * g.base_permutes.length

end safs

namespace fm

/-! ## Identity of external-memory matrix stores

`EM_dense_matrix.h` declares the two identifiers and the constructors; their
definitions (`EM_dense_matrix.cpp`) are not among the sources. -/

/-- The layout tag `matrix_layout_t`. -/
inductive matrix_layout_t where
  | L_ROW
  | L_COL
deriving DecidableEq, Repr

/-- The fields of an `EM_matrix_store` that identity and shape concern. -/
structure EM_matrix_store where
  mat_id : Nat
  data_id : Nat
  layout : matrix_layout_t
  num_rows : Nat
  num_cols : Nat
  orig_num_rows : Nat
  orig_num_cols : Nat
deriving DecidableEq, Repr

/-- Modelled from the spec: the constructor of a fresh store
(`EM_matrix_store(nrow, ncol, layout, type, group)`, defined in the missing
`EM_dense_matrix.cpp`): "assigns a fresh structural id and a data id equal to
each other". `counter` is the next identifier not handed out yet; the result
carries the advanced counter. -/
def EM_matrix_store.create (counter nrow ncol : Nat) (layout : matrix_layout_t) :
    EM_matrix_store × Nat :=
  ({ mat_id := counter, data_id := counter, layout := layout, num_rows := nrow,
     num_cols := ncol, orig_num_rows := nrow, orig_num_cols := ncol }, counter + 1)

/-- Modelled from the spec: the constructor of a derived view
(`EM_matrix_store(holder, ios, nrow, ncol, orig_nrow, orig_ncol, layout, type,
_data_id)`, defined in the missing `EM_dense_matrix.cpp`): "assigns a fresh
structural id but copies the source's data id". -/
def EM_matrix_store.view (counter nrow ncol orig_nrow orig_ncol : Nat)
    (layout : matrix_layout_t) (_data_id : Nat) : EM_matrix_store × Nat :=
  ({ mat_id := counter, data_id := _data_id, layout := layout, num_rows := nrow,
     num_cols := ncol, orig_num_rows := orig_nrow, orig_num_cols := orig_ncol }, counter + 1)

/-- Modelled from the spec: `EM_matrix_store::transpose` (defined in the
missing `EM_dense_matrix.cpp`): a derived view with "the exposed row/column
roles and the layout tag" swapped. -/
def EM_matrix_store.transpose (S : EM_matrix_store) (counter : Nat) : EM_matrix_store × Nat :=
  EM_matrix_store.view counter S.num_cols S.num_rows S.orig_num_cols S.orig_num_rows
    (match S.layout with
      | .L_ROW => .L_COL
      | .L_COL => .L_ROW)
    S.data_id

end fm

/-! # Theorems -/

namespace safs

theorem map_id_range (n : Nat) : (List.range n).map (fun i => i) = List.range n := by
  simp

/-- Reading the rotated indices `(k + i) % n`, `i < n`, gives a permutation
of `0 .. n-1`. -/
theorem rotate_indices_perm (n k : Nat) :
    ((List.range n).map (fun i => (k + i) % n)).Perm (List.range n) := by
  have h : (List.range n).map (fun i => (k + i) % n) = (List.range n).rotate (k % n) := by
    apply List.ext_getElem
    · simp
    · intro i h1 h2
      simp only [List.length_map, List.length_range] at h1
      simp [List.getElem_rotate, Nat.add_comm]
  rw [h]
  exact List.rotate_perm _ _

/-- Reading a permutation `base` of `0 .. n-1` at the rotated indices gives a
permutation of `0 .. n-1`. -/
theorem read_rotated_perm (n rot : Nat) (base : List Nat) (hb : base.Perm (List.range n)) :
    ((List.range n).map (fun i => base.getD ((rot + i) % n) 0)).Perm (List.range n) := by
  have hlen : base.length = n := by simpa using hb.length_eq
  have h1 : (List.range n).map (fun i => base.getD ((rot + i) % n) 0)
      = ((List.range n).map (fun i => (rot + i) % n)).map (fun j => base.getD j 0) := by
    simp [List.map_map, Function.comp]
  have h2 : (List.range n).map (fun j => base.getD j 0) = base := by
    apply List.ext_getElem
    · simp [hlen]
    · intro i h1 h2
      simp [List.getD_eq_getElem?_getD, List.getElem?_eq_getElem h2]
  rw [h1]
  refine ((rotate_indices_perm n rot).map _).trans ?_
  rw [h2]
  exact hb

theorem shuffle_disks_perm {ρ : Type} (S : Shuffler ρ) (hS : S.Permutes) (r : ρ) (n : Nat) :
    ((shuffle_disks S r n).1).Perm (List.range n) := by
  have h := hS r ((List.range n).map (fun i => i))
  rw [map_id_range] at h
  unfold shuffle_disks
  rw [map_id_range]
  exact h

theorem RRInv_init {ρ : Type} (S : Shuffler ρ) (hS : S.Permutes) (r : ρ) (n : Nat) :
    RRInv n (rand_rotate_file_group.init S r n).1 := by
  refine ⟨by simp [rand_rotate_file_group.init], by simp [rand_rotate_file_group.init], ?_, ?_,
    by simp [rand_rotate_file_group.init]⟩
  · intro b hb
    simp only [rand_rotate_file_group.init, List.mem_singleton] at hb
    subst hb
    exact shuffle_disks_perm S hS _ _
  · intro t ht
    simp only [rand_rotate_file_group.init, List.mem_singleton] at ht
    subst ht
    exact shuffle_disks_perm S hS _ _

theorem RRInv_headD_length {n : Nat} {g : rand_rotate_file_group} (h : RRInv n g) :
    (g.base_permutes.headD []).length = n := by
  obtain ⟨hne, _, hb, _, _⟩ := h
  cases hbp : g.base_permutes with
  | nil => exact absurd hbp hne
  | cons b bs =>
    have := (hb b (by simp [hbp])).length_eq
    simpa using this

theorem getD_perm_of_forall {n i : Nat} {ls : List (List Nat)}
    (h : ∀ l ∈ ls, l.Perm (List.range n)) (hi : i < ls.length) :
    (ls.getD i []).Perm (List.range n) := by
  have : ls.getD i [] = ls[i] := by
    simp [List.getD_eq_getElem?_getD, List.getElem?_eq_getElem hi]
  rw [this]
  exact h _ (List.getElem_mem hi)

/-- One call of `rand_rotate_file_group::add_file` on a group that satisfies
the invariant returns a permutation and re-establishes the invariant. -/
theorem rand_rotate_add_file_step {ρ : Type} (S : Shuffler ρ) (hS : S.Permutes) (n : Nat)
    (hn : 0 < n) (g : rand_rotate_file_group) (r : ρ) (hg : RRInv n g) :
    ((rand_rotate_file_group.add_file S g r).1).Perm (List.range n) ∧
      RRInv n (rand_rotate_file_group.add_file S g r).2.1 := by
  have hlen := RRInv_headD_length hg
  obtain ⟨hne, hrl, hb, ht, hnf⟩ := hg
  have hdiv : g.num_files / n ≤ g.base_permutes.length :=
    Nat.div_le_of_le_mul hnf
  unfold rand_rotate_file_group.add_file
  simp only [hlen]
  by_cases hc : g.num_files / n ≥ g.base_permutes.length
  · have heq : g.num_files / n = g.base_permutes.length := le_antisymm hdiv hc
    simp only [hc, if_true]
    have hb2 : ∀ b ∈ g.base_permutes ++ [(shuffle_disks S r n).1], b.Perm (List.range n) := by
      intro b hm
      rcases List.mem_append.1 hm with h | h
      · exact hb b h
      · simp only [List.mem_singleton] at h; subst h; exact shuffle_disks_perm S hS _ _
    have ht2 : ∀ t ∈ g.rand_rotates ++ [(shuffle_disks S (shuffle_disks S r n).2 n).1],
        t.Perm (List.range n) := by
      intro t hm
      rcases List.mem_append.1 hm with h | h
      · exact ht t h
      · simp only [List.mem_singleton] at h; subst h; exact shuffle_disks_perm S hS _ _
    refine ⟨?_, ?_⟩
    · apply read_rotated_perm
      exact getD_perm_of_forall hb2 (by simp [heq])
    · refine ⟨by simp, by simp [hrl], hb2, ht2, ?_⟩
      simp only [List.length_append, List.length_singleton]
      have := Nat.lt_succ_iff.2 (le_of_eq heq)
      have h3 : g.num_files < n * (g.base_permutes.length + 1) := by
        have := (Nat.div_lt_iff_lt_mul hn).1 this
        rw [Nat.mul_comm]; exact this
      omega
  · simp only [hc, if_false]
    have hlt : g.num_files / n < g.base_permutes.length := by omega
    refine ⟨?_, ?_⟩
    · apply read_rotated_perm
      exact getD_perm_of_forall hb hlt
    · refine ⟨hne, hrl, hb, ht, ?_⟩
      have h3 : g.num_files < n * g.base_permutes.length := by
        have := (Nat.div_lt_iff_lt_mul hn).1 hlt
        rw [Nat.mul_comm]; exact this
      show g.num_files + 1 ≤ n * g.base_permutes.length
      omega

theorem RRInv_after {ρ : Type} (S : Shuffler ρ) (hS : S.Permutes) (n : Nat) (hn : 0 < n)
    (r : ρ) (k : Nat) :
    RRInv n (rand_rotate_file_group.after S (rand_rotate_file_group.init S r n) k).1 := by
  induction k with
  | zero => exact RRInv_init S hS r n
  | succ k ih =>
    exact (rand_rotate_add_file_step S hS n hn _ _ ih).2

theorem naive_after_num_disks (g : naive_file_group) (k : Nat) :
    (g.after k).num_disks = g.num_disks := by
  induction k with
  | zero => rfl
  | succ k ih => simpa [naive_file_group.after, naive_file_group.add_file] using ih

theorem rotate_after_state (g : rotate_file_group) (k : Nat) :
    g.after k = { num_files := g.num_files + k, num_disks := g.num_disks } := by
  induction k with
  | zero => rfl
  | succ k ih =>
    simp [rotate_file_group.after, rotate_file_group.add_file, ih, Nat.add_assoc]

theorem rotShuffler_permutes : rotShuffler.Permutes := by
  intro r l
  exact List.rotate_perm l r

/-- C1: for every disk count `n ≥ 1`, every placement strategy returns a
permutation of `0 .. n-1` (so a list of length `n` holding each disk index
exactly once) at every call, whatever the number `k` of earlier calls on the
same instance: `naive_file_group`, `rotate_file_group`,
`rand_rotate_file_group` and the fallback `shuffle_disks`, with
`random_shuffle` assumed to return a permutation of its input. -/
theorem C1_add_file_permutation {ρ : Type} (S : Shuffler ρ) (hS : S.Permutes)
    (n : Nat) (hn : 1 ≤ n) (k : Nat) (r : ρ) :
    ((((naive_file_group.init n).after k).add_file).1).Perm (List.range n) ∧
    ((((rotate_file_group.init n).after k).add_file).1).Perm (List.range n) ∧
    ((rand_rotate_file_group.add_file S
        (rand_rotate_file_group.after S (rand_rotate_file_group.init S r n) k).1
        (rand_rotate_file_group.after S (rand_rotate_file_group.init S r n) k).2).1).Perm
      (List.range n) ∧
    ((shuffle_disks S r n).1).Perm (List.range n) := by
  refine ⟨?_, ?_, ?_, shuffle_disks_perm S hS r n⟩
  · simp only [naive_file_group.add_file, naive_after_num_disks, naive_file_group.init,
      map_id_range]
    exact List.Perm.refl _
  · rw [rotate_after_state]
    simp only [rotate_file_group.add_file, rotate_file_group.init]
    exact rotate_indices_perm n _
  · exact (rand_rotate_add_file_step S hS n hn _ _ (RRInv_after S hS n hn r k)).1

theorem C1_add_file_permutation_witness :
    rotShuffler.Permutes ∧ 1 ≤ 3 ∧
    ((((naive_file_group.init 3).after 5).add_file).1).Perm (List.range 3) ∧
    ((((rotate_file_group.init 3).after 5).add_file).1).Perm (List.range 3) ∧
    ((rand_rotate_file_group.add_file rotShuffler
        (rand_rotate_file_group.after rotShuffler
          (rand_rotate_file_group.init rotShuffler 1 3) 5).1
        (rand_rotate_file_group.after rotShuffler
          (rand_rotate_file_group.init rotShuffler 1 3) 5).2).1).Perm
      (List.range 3) ∧
    ((shuffle_disks rotShuffler 1 3).1).Perm (List.range 3) :=
  ⟨rotShuffler_permutes, by decide,
    C1_add_file_permutation rotShuffler rotShuffler_permutes 3 (by decide) 5 1⟩

/-- C2: for every disk count `n ≥ 1` and every `k ≥ 0`, the `(k+1)`-th call
of `rotate_file_group::add_file` on one instance returns the list whose
`i`-th element is `(k + i) mod n`, `i = 0 .. n-1`; its first element is
`k mod n`. -/
theorem C2_rotate_add_file (n : Nat) (hn : 1 ≤ n) (k : Nat) :
    (((rotate_file_group.init n).after k).add_file).1
        = (List.range n).map (fun i => (k + i) % n) ∧
    ((((rotate_file_group.init n).after k).add_file).1).head? = some (k % n) := by
  have h : (((rotate_file_group.init n).after k).add_file).1
        = (List.range n).map (fun i => (k + i) % n) := by
    rw [rotate_after_state]
    simp [rotate_file_group.add_file, rotate_file_group.init]
  refine ⟨h, ?_⟩
  rw [h]
  obtain ⟨m, rfl⟩ : ∃ m, n = m + 1 := ⟨n - 1, by omega⟩
  simp [List.range_succ_eq_map]

theorem C2_rotate_add_file_witness :
    1 ≤ 4 ∧ (((rotate_file_group.init 4).after 6).add_file).1
        = (List.range 4).map (fun i => (6 + i) % 4) ∧
    ((((rotate_file_group.init 4).after 6).add_file).1).head? = some (6 % 4) :=
  ⟨by decide, C2_rotate_add_file 4 (by decide) 6⟩

/-! ## The integrity check -/

theorem fold_insert_spec {α : Type} [DecidableEq α] (L : List α) :
    ∀ ids : List α, ids.Nodup →
      (L.foldl (fun acc x => List.insert x acc) ids).Nodup ∧
      ∀ x, x ∈ L.foldl (fun acc x => List.insert x acc) ids ↔ x ∈ ids ∨ x ∈ L := by
  induction L with
  | nil => intro ids h; simp [h]
  | cons a L ih =>
    intro ids h
    obtain ⟨h1, h2⟩ := ih (List.insert a ids) (h.insert)
    refine ⟨h1, ?_⟩
    intro x
    simp only [List.foldl_cons, h2, List.mem_insert_iff, List.mem_cons]
    tauto

theorem fold_insert_length_lt {α : Type} [DecidableEq α] (L : List α) :
    (L.foldl (fun acc x => List.insert x acc) []).length < L.length ↔ ¬ L.Nodup := by
  obtain ⟨h1, h2⟩ := fold_insert_spec L [] List.nodup_nil
  have hfs : (L.foldl (fun acc x => List.insert x acc) []).toFinset = L.toFinset := by
    ext x; simp [h2]
  have hlen : (L.foldl (fun acc x => List.insert x acc) []).length = L.toFinset.card := by
    rw [← hfs, List.toFinset_card_of_nodup h1]
  rw [hlen]
  have hiff := @Multiset.toFinset_card_eq_card_iff_nodup α _ (L : Multiset α)
  simp only [List.toFinset_coe, Multiset.coe_card, Multiset.coe_nodup] at hiff
  have hle := List.toFinset_card_le L
  constructor
  · intro hlt hnd
    have := hiff.2 hnd
    omega
  · intro hnd
    by_contra hge
    exact hnd (hiff.1 (by omega))

theorem exist_loop_ok {σ : Type} (P : Prims σ) (s : σ) (ds : List part_file_info) :
    ∀ ids : List Int, (∀ d ∈ ds, part_ok P s d) →
      exist_loop P s ds ids
        = some ((ds.map (part_ordinal P s)).foldl (fun acc x => List.insert x acc) ids) := by
  induction ds with
  | nil => intro ids _; rfl
  | cons d ds ih =>
    intro ids h
    have hd := h d (List.mem_cons_self _ _)
    have ht := ih (List.insert (part_ordinal P s d) ids)
      (fun e he => h e (List.mem_cons_of_mem _ he))
    simp only [exist_loop, hd.1, hd.2, Bool.not_true, ne_eq, not_true_eq_false, if_false]
    simpa [part_ordinal] using ht

theorem exist_loop_bad {σ : Type} (P : Prims σ) (s : σ) (ds : List part_file_info) :
    ∀ ids : List Int, (∃ d ∈ ds, ¬ part_ok P s d) → exist_loop P s ds ids = none := by
  induction ds with
  | nil => intro ids h; obtain ⟨d, hd, _⟩ := h; cases hd
  | cons d ds ih =>
    intro ids h
    by_cases hd : part_ok P s d
    · have ht : ∃ e ∈ ds, ¬ part_ok P s e := by
        obtain ⟨e, he, hne⟩ := h
        rcases List.mem_cons.1 he with rfl | he
        · exact absurd hd hne
        · exact ⟨e, he, hne⟩
      simp only [exist_loop, hd.1, hd.2, Bool.not_true, ne_eq, not_true_eq_false, if_false]
      exact ih _ ht
    · unfold part_ok at hd
      by_cases h1 : P.dir_exist s d.file_name = true
      · have h2 : (part_files P s d.file_name).length ≠ 1 := fun h2 => hd ⟨h1, h2⟩
        simp [exist_loop, h1, h2]
      · simp [exist_loop, h1]

/-- What `safs_file::exist` decides: every fragment directory passes the
per-disk test and the ordinals read are pairwise distinct. -/
theorem exist_iff {σ : Type} (P : Prims σ) (s : σ) (f : safs_file) :
    f.exist P s = true ↔
      (∀ d ∈ f.native_dirs, part_ok P s d) ∧
      (f.native_dirs.map (part_ordinal P s)).Nodup := by
  by_cases hall : ∀ d ∈ f.native_dirs, part_ok P s d
  · have hl := exist_loop_ok P s f.native_dirs [] hall
    have hlt := fold_insert_length_lt (f.native_dirs.map (part_ordinal P s))
    simp only [List.length_map] at hlt
    unfold safs_file.exist
    rw [hl]
    by_cases hnd : (f.native_dirs.map (part_ordinal P s)).Nodup
    · have : ¬ ((f.native_dirs.map (part_ordinal P s)).foldl
          (fun acc x => List.insert x acc) []).length < f.native_dirs.length :=
        fun h => (hlt.1 h) hnd
      simp only [this, if_false, true_iff]
      exact ⟨hall, hnd⟩
    · have := hlt.2 hnd
      simp only [this, if_true, Bool.false_eq_true, false_iff]
      exact fun h => hnd h.2
  · have hex : ∃ d ∈ f.native_dirs, ¬ part_ok P s d := by
      by_contra hc
      apply hall
      intro d hd
      by_contra hn
      exact hc ⟨d, hd, hn⟩
    have hl := exist_loop_bad P s f.native_dirs [] hex
    unfold safs_file.exist
    rw [hl]
    simp [hall]

/-- C4 (as the code decides it): for every state of the directories,
`safs_file::exist` returns true if and only if, for every disk, the fragment
directory exists and its listing has exactly one entry once the entries named
"header" are removed, which is done only when the listing has more than one
entry, and the `int`s that `atoi` returns for the entries kept are pairwise
distinct across the disks. `atoi` is a parameter, so this holds for the `int`
of libc, whatever it returns for a name out of range. -/
theorem C4_exist_iff_listing {σ : Type} (P : Prims σ) (s : σ) (f : safs_file) :
    f.exist P s = true ↔
      (∀ d ∈ f.native_dirs, P.dir_exist s d.file_name = true ∧
        (if (P.read_all_files s d.file_name).length > 1
          then erase_header_file (P.read_all_files s d.file_name)
          else P.read_all_files s d.file_name).length = 1) ∧
      (f.native_dirs.map (fun d =>
        P.atoi ((if (P.read_all_files s d.file_name).length > 1
          then erase_header_file (P.read_all_files s d.file_name)
          else P.read_all_files s d.file_name).headD ""))).Nodup := by
  exact exist_iff P s f

/-- C4 fails as stated: on one disk whose fragment directory holds only the
entry "header", `exist` returns true, although no data file is left once the
header is removed. -/
theorem C4_header_only_counterexample :
    (safs_file.init conf1 "M").exist fsPrims fsHeaderOnly = true ∧
    ¬ exist_spec fsPrims fsHeaderOnly (safs_file.init conf1 "M") := by
  refine ⟨by decide, ?_⟩
  intro h
  have h1 := (h.1 ⟨["mnt", "d0", "M"], 0, 0⟩ (by decide)).2
  revert h1
  decide

/-! ## Deletion and renaming -/

theorem delete_loop_append {σ : Type} (P : Prims σ) (pre : List part_file_info) :
    ∀ (rest : List part_file_info) (s : σ),
      delete_loop P (pre ++ rest) s =
        if (delete_loop P pre s).1 then delete_loop P rest (delete_loop P pre s).2
        else delete_loop P pre s := by
  induction pre with
  | nil => intro rest s; simp [delete_loop]
  | cons d pre ih =>
    intro rest s
    by_cases h : (P.delete_dir s d.file_name).1 = true
    · simp [delete_loop, h, ih]
    · simp [delete_loop, h]

theorem rename_loop_append {σ : Type} (P : Prims σ) (new_name : String)
    (pre : List part_file_info) :
    ∀ (rest : List part_file_info) (s : σ),
      rename_loop P new_name (pre ++ rest) s =
        if (rename_loop P new_name pre s).1
        then rename_loop P new_name rest (rename_loop P new_name pre s).2
        else rename_loop P new_name pre s := by
  induction pre with
  | nil => intro rest s; simp [rename_loop]
  | cons d pre ih =>
    intro rest s
    by_cases h : (P.rename_to s d.file_name (P.get_dir_name d.file_name ++ [new_name])).1 = true
    · simp [rename_loop, h, ih]
    · simp [rename_loop, h]

/-- The rename loop reports failure exactly when the rename of some
directory, attempted after the earlier ones succeeded, fails. -/
theorem rename_loop_false_iff {σ : Type} (P : Prims σ) (new_name : String)
    (ds : List part_file_info) :
    ∀ s : σ, (rename_loop P new_name ds s).1 = false ↔
      ∃ pre d post, ds = pre ++ d :: post ∧ rename_fails_at P new_name s pre d := by
  induction ds using List.reverseRecOn with
  | nil =>
    intro s
    simp [rename_loop]
  | append_singleton ds d ih =>
    intro s
    rw [rename_loop_append]
    by_cases h : (rename_loop P new_name ds s).1 = true
    · simp only [h, if_true]
      constructor
      · intro hf
        refine ⟨ds, d, [], rfl, h, ?_⟩
        by_cases h2 : (P.rename_to (rename_loop P new_name ds s).2 d.file_name
            (P.get_dir_name d.file_name ++ [new_name])).1 = true
        · simp [rename_loop, h2] at hf
        · simpa using h2
      · rintro ⟨pre, e, post, hsplit, hpre, hfail⟩
        rcases List.eq_nil_or_concat post with rfl | ⟨post1, e1, rfl⟩
        · have := List.append_inj_left' hsplit (by simp)
          have h3 := List.append_inj_right' hsplit (by simp)
          simp only [List.cons.injEq, and_true] at h3
          subst this; subst h3
          simp [rename_loop, hfail]
        · exfalso
          have hsplit2 : ds ++ [d] = (pre ++ e :: post1) ++ [e1] := by
            simp [hsplit, List.concat_eq_append]
          have h4 := List.append_inj_left' hsplit2 (by simp)
          have := (ih s).2 ⟨pre, e, post1, h4, hpre, hfail⟩
          rw [h] at this
          exact Bool.noConfusion this
    · have hff : (rename_loop P new_name ds s).1 = false := by simpa using h
      simp only [hff, Bool.false_eq_true, if_false, true_iff]
      obtain ⟨pre, e, post, hsplit, hf⟩ := (ih s).1 hff
      exact ⟨pre, e, post ++ [d], by simp [hsplit], hf⟩

theorem rename_loop_fail_state {σ : Type} (P : Prims σ) (new_name : String) (s : σ)
    (pre post : List part_file_info) (d : part_file_info)
    (h : rename_fails_at P new_name s pre d) :
    rename_loop P new_name (pre ++ d :: post) s =
      (false, (P.rename_to (rename_loop P new_name pre s).2 d.file_name
        (P.get_dir_name d.file_name ++ [new_name])).2) := by
  rw [rename_loop_append]
  simp [h.1, rename_loop, h.2]

/-- C7 (as the code behaves): `safs_file::delete_file` deletes the fragment
directories in roster order and returns at the first deletion that fails:
when the directories of the disks before disk `d` were deleted and the
deletion on `d` fails, the result is failure and the disks are left as that
failed deletion left them, so no deletion is attempted on a later disk. -/
theorem C7_delete_file_stops_at_failure {σ : Type} (P : Prims σ) (s : σ) (f : safs_file)
    (pre post : List part_file_info) (d : part_file_info)
    (hsplit : f.native_dirs = pre ++ d :: post)
    (hfail : delete_fails_at P s pre d) :
    f.delete_file P s = (false, (P.delete_dir (delete_loop P pre s).2 d.file_name).2) := by
  unfold safs_file.delete_file
  rw [hsplit, delete_loop_append]
  simp [hfail.1, delete_loop, hfail.2]

theorem C7_delete_file_stops_at_failure_witness :
    (safs_file.init conf2 "M").native_dirs
      = [] ++ ⟨["mnt", "d0", "M"], 0, 0⟩ :: [⟨["mnt", "d1", "M"], 1, 0⟩] ∧
    delete_fails_at fsPrims fsHalf [] ⟨["mnt", "d0", "M"], 0, 0⟩ ∧
    (safs_file.init conf2 "M").delete_file fsPrims fsHalf
      = (false, (fsPrims.delete_dir (delete_loop fsPrims [] fsHalf).2 ["mnt", "d0", "M"]).2) :=
  ⟨by decide, ⟨by decide, by decide⟩,
    C7_delete_file_stops_at_failure fsPrims fsHalf (safs_file.init conf2 "M") []
      [⟨["mnt", "d1", "M"], 1, 0⟩] ⟨["mnt", "d0", "M"], 0, 0⟩ (by decide)
      ⟨by decide, by decide⟩⟩

/-- C7 fails as stated: with two disks, the fragment directory missing on the
first and present on the second, the deletion on the first disk fails,
`delete_file` reports failure, and the directory of the second disk, whose
deletion would succeed, is still there. -/
theorem C7_later_disk_not_deleted_counterexample :
    (fsPrims.delete_dir fsHalf ["mnt", "d0", "M"]).1 = false ∧
    ((safs_file.init conf2 "M").delete_file fsPrims fsHalf).1 = false ∧
    (fsPrims.delete_dir ((safs_file.init conf2 "M").delete_file fsPrims fsHalf).2
      ["mnt", "d1", "M"]).1 = true ∧
    fsPrims.dir_exist ((safs_file.init conf2 "M").delete_file fsPrims fsHalf).2
      ["mnt", "d1", "M"] = true := by
  decide

/-- C8: `safs_file::rename`. If `exist` is false, or the rename of some
fragment directory fails after the earlier ones succeeded, the result is
false and the object (logical name and fragment paths) is unchanged; in the
second case the disks are left as the failed rename left them, the earlier
renames are not undone. If `exist` is true and the rename succeeds on every
disk, the result is true, the logical name is `new_name`, and every fragment
path is `get_dir_name(old path) + "/" + new_name` with its disk id and node
id unchanged. -/
theorem C8_rename {σ : Type} (P : Prims σ) (s : σ) (f : safs_file) (new_name : String) :
    ((f.exist P s = false ∨
        ∃ pre d post, f.native_dirs = pre ++ d :: post ∧ rename_fails_at P new_name s pre d) →
      (f.rename P s new_name).1 = false ∧ (f.rename P s new_name).2.2 = f) ∧
    (f.exist P s = true → ∀ pre d post, f.native_dirs = pre ++ d :: post →
      rename_fails_at P new_name s pre d →
      (f.rename P s new_name).2.1
        = (P.rename_to (rename_loop P new_name pre s).2 d.file_name
            (P.get_dir_name d.file_name ++ [new_name])).2) ∧
    (f.exist P s = true →
      (∀ pre d post, f.native_dirs = pre ++ d :: post →
        (P.rename_to (rename_loop P new_name pre s).2 d.file_name
            (P.get_dir_name d.file_name ++ [new_name])).1 = true) →
      (f.rename P s new_name).1 = true ∧
      (f.rename P s new_name).2.2.name = new_name ∧
      (f.rename P s new_name).2.2.native_dirs
        = f.native_dirs.map (fun d =>
            { file_name := P.get_dir_name d.file_name ++ [new_name],
              disk_id := d.disk_id, node_id := d.node_id })) := by
  refine ⟨?_, ?_, ?_⟩
  · rintro (h | ⟨pre, d, post, hsplit, hf⟩)
    · simp [safs_file.rename, h]
    · have hl := (rename_loop_false_iff P new_name f.native_dirs s).2 ⟨pre, d, post, hsplit, hf⟩
      by_cases he : f.exist P s = true
      · simp [safs_file.rename, he, hl]
      · simp [safs_file.rename, he]
  · intro he pre d post hsplit hf
    have hl := rename_loop_fail_state P new_name s pre post d hf
    rw [← hsplit] at hl
    simp [safs_file.rename, he, hl]
  · intro he hall
    have hl : (rename_loop P new_name f.native_dirs s).1 = true := by
      by_contra hc
      have hc2 : (rename_loop P new_name f.native_dirs s).1 = false := by simpa using hc
      obtain ⟨pre, d, post, hsplit, hf⟩ := (rename_loop_false_iff P new_name f.native_dirs s).1 hc2
      have := hall pre d post hsplit
      rw [hf.2] at this
      exact Bool.noConfusion this
    simp [safs_file.rename, he, hl]

theorem C8_rename_witness :
    (safs_file.init conf2 "M").exist fsPrims fsTwo = true ∧
    ((safs_file.init conf2 "M").rename fsPrims fsTwo "N").1 = true ∧
    ((safs_file.init conf2 "M").rename fsPrims fsTwo "N").2.2.name = "N" ∧
    ((safs_file.init conf2 "M").rename fsPrims fsTwo "N").2.2.native_dirs
      = (safs_file.init conf2 "M").native_dirs.map (fun d =>
          { file_name := fsPrims.get_dir_name d.file_name ++ ["N"],
            disk_id := d.disk_id, node_id := d.node_id }) :=
  ⟨by decide,
    (C8_rename fsPrims fsTwo (safs_file.init conf2 "M") "N").2.2 (by decide)
      (fun pre d post hsplit => by
        by_contra hc
        have hf : rename_fails_at fsPrims "N" fsTwo pre d := by
          refine ⟨?_, by simpa using hc⟩
          by_contra hp
          have hp2 : (rename_loop fsPrims "N" pre fsTwo).1 = false := by simpa using hp
          obtain ⟨a, b, c, hs, hfa⟩ := (rename_loop_false_iff fsPrims "N" pre fsTwo).1 hp2
          have := (rename_loop_false_iff fsPrims "N" (safs_file.init conf2 "M").native_dirs
            fsTwo).2 ⟨a, b, c ++ d :: post, by simp [hsplit, hs], hfa⟩
          revert this
          decide
        have := (rename_loop_false_iff fsPrims "N" (safs_file.init conf2 "M").native_dirs
          fsTwo).2 ⟨pre, d, post, hsplit, hf⟩
        revert this
        decide)⟩

/-! ## Enumeration of the logical files -/

theorem mem_foldl_insert {α : Type} [DecidableEq α] (L : List α) :
    ∀ (ids : List α) (x : α),
      x ∈ L.foldl (fun acc x => List.insert x acc) ids ↔ x ∈ ids ∨ x ∈ L := by
  induction L with
  | nil => intro ids x; simp
  | cons a L ih =>
    intro ids x
    simp only [List.foldl_cons, ih, List.mem_insert_iff, List.mem_cons]
    tauto

theorem mem_all_root_files_aux {σ : Type} (P : Prims σ) (s : σ) (conf : List part_file_info) :
    ∀ (all : List String) (x : String),
      x ∈ conf.foldl (fun all d =>
          (P.read_all_files s d.file_name).foldl (fun acc x => List.insert x acc) all) all
        ↔ x ∈ all ∨ ∃ d ∈ conf, x ∈ P.read_all_files s d.file_name := by
  induction conf with
  | nil => intro all x; simp
  | cons d conf ih =>
    intro all x
    simp only [List.foldl_cons, ih, mem_foldl_insert, List.mem_cons, exists_eq_or_imp]
    tauto

theorem mem_all_root_files {σ : Type} (P : Prims σ) (s : σ) (conf : List part_file_info)
    (x : String) :
    x ∈ all_root_files P s conf ↔ ∃ d ∈ conf, x ∈ P.read_all_files s d.file_name := by
  unfold all_root_files
  rw [mem_all_root_files_aux]
  simp

theorem mem_foldl_insert_if {α : Type} [DecidableEq α] (p : α → Bool) (L : List α) :
    ∀ (out : List α) (x : α),
      x ∈ L.foldl (fun out x => if p x then List.insert x out else out) out
        ↔ x ∈ out ∨ (x ∈ L ∧ p x = true) := by
  induction L with
  | nil => intro out x; simp
  | cons a L ih =>
    intro out x
    simp only [List.foldl_cons, ih, List.mem_cons]
    by_cases hp : p a = true
    · simp only [hp, if_true, List.mem_insert_iff]
      constructor
      · rintro ((rfl | h) | h)
        · exact Or.inr ⟨Or.inl rfl, hp⟩
        · exact Or.inl h
        · exact Or.inr ⟨Or.inr h.1, h.2⟩
      · rintro (h | ⟨rfl | h, h2⟩)
        · exact Or.inl (Or.inr h)
        · exact Or.inl (Or.inl rfl)
        · exact Or.inr ⟨h, h2⟩
    · simp only [hp, if_false, Bool.false_eq_true]
      constructor
      · rintro (h | h)
        · exact Or.inl h
        · exact Or.inr ⟨Or.inr h.1, h.2⟩
      · rintro (h | ⟨rfl | h, h2⟩)
        · exact Or.inl h
        · exact absurd h2 hp
        · exact Or.inr ⟨h, h2⟩

/-- A fragment directory with two or more entries other than "header" fails
the per-disk test of `exist`. -/
theorem not_part_ok_of_two_data_files {σ : Type} (P : Prims σ) (s : σ) (d : part_file_info)
    (h : 2 ≤ (erase_header_file (P.read_all_files s d.file_name)).length) :
    ¬ part_ok P s d := by
  intro hok
  have h1 := hok.2
  unfold part_files at h1
  have hle : (erase_header_file (P.read_all_files s d.file_name)).length
      ≤ (P.read_all_files s d.file_name).length := List.length_filter_le _ _
  have hgt : (P.read_all_files s d.file_name).length > 1 := by omega
  simp only [hgt, if_true] at h1
  omega

/-- C9: for every state of the disks, the names `get_all_safs_files` adds to
its output set are exactly the names found in the root listing of at least
one disk for which `safs_file(name).exist()` is true. A name one of whose
fragment directories holds two data files, or whose ordinals are duplicated
across disks, is not added; whether a name is added does not depend on the
other names. -/
theorem C9_get_all_safs_files {σ : Type} (P : Prims σ) (s : σ) (conf : List part_file_info)
    (files : List String) :
    (∀ x, x ∈ get_all_safs_files P s conf files ↔
      x ∈ files ∨ ((∃ d ∈ conf, x ∈ P.read_all_files s d.file_name) ∧
        (safs_file.init conf x).exist P s = true)) ∧
    (∀ x, ((∃ d ∈ (safs_file.init conf x).native_dirs,
            2 ≤ (erase_header_file (P.read_all_files s d.file_name)).length) ∨
          ¬ ((safs_file.init conf x).native_dirs.map (part_ordinal P s)).Nodup) →
      (safs_file.init conf x).exist P s = false ∧
      (x ∈ get_all_safs_files P s conf files ↔ x ∈ files)) := by
  have hmem : ∀ x, x ∈ get_all_safs_files P s conf files ↔
      x ∈ files ∨ ((∃ d ∈ conf, x ∈ P.read_all_files s d.file_name) ∧
        (safs_file.init conf x).exist P s = true) := by
    intro x
    unfold get_all_safs_files
    rw [mem_foldl_insert_if (fun x => (safs_file.init conf x).exist P s), mem_all_root_files]
  refine ⟨hmem, ?_⟩
  intro x hbad
  have hne : (safs_file.init conf x).exist P s = false := by
    by_contra hc
    have ht : (safs_file.init conf x).exist P s = true := by simpa using hc
    have hi := (exist_iff P s (safs_file.init conf x)).1 ht
    rcases hbad with ⟨d, hd, h2⟩ | hdup
    · exact not_part_ok_of_two_data_files P s d h2 (hi.1 d hd)
    · exact hdup hi.2
  refine ⟨hne, ?_⟩
  rw [hmem x, hne]
  simp

/-! ## The model of the disks: what each primitive changes -/

theorem FS.set_node (fs : FS) (p : Path) (v : Option Node) (q : Path) :
    (fs.set p v).node q = if q = p then v else fs.node q := rfl

theorem dropLast_ne_self {p : Path} (hp : p ≠ []) : p.dropLast ≠ p := by
  intro h
  have := congrArg List.length h
  simp only [List.length_dropLast] at this
  have : 0 < p.length := List.length_pos.2 hp
  omega

theorem FS.link_node_parent (fs : FS) (d : Path) (x : String) (es : List String)
    (h : fs.node d = some (.dir es)) :
    (fs.link (d ++ [x])).node d = some (.dir (if x ∈ es then es else es ++ [x])) := by
  unfold FS.link
  simp only [List.getLast?_append, List.getLast?_singleton, Option.or_some, List.dropLast_concat, h]
  by_cases hx : x ∈ es
  · simp [hx, h]
  · simp [hx, FS.set_node]

theorem FS.link_node_other (fs : FS) (p q : Path) (hq : q ≠ p.dropLast) :
    (fs.link p).node q = fs.node q := by
  unfold FS.link
  split
  · split
    · rfl
    · simp [FS.set_node, hq]
  · rfl

theorem FS.link_node_dir (fs : FS) (p q : Path) (es : List String)
    (h : fs.node q = some (.dir es)) :
    ∃ es', (fs.link p).node q = some (.dir es') := by
  by_cases hq : q = p.dropLast
  · subst hq
    unfold FS.link
    split
    · rename_i x es2 hx hes
      split
      · exact ⟨es, h⟩
      · exact ⟨es2 ++ [x], by simp [FS.set_node]⟩
    · exact ⟨es, h⟩
  · exact ⟨es, by rw [FS.link_node_other fs p q hq, h]⟩

/-- Creating a missing directory whose parent is a directory succeeds; it
becomes an empty directory, the parent stays a directory, and nothing else
changes. -/
theorem FS.create_dir_spec (fs : FS) (p : Path) (es : List String) (hp : p ≠ [])
    (hnone : fs.node p = none) (hpar : fs.node p.dropLast = some (.dir es)) :
    (fs.create_dir p).1 = true ∧
    (fs.create_dir p).2.node p = some (.dir []) ∧
    (∀ q, q ≠ p → q ≠ p.dropLast → (fs.create_dir p).2.node q = fs.node q) ∧
    (∀ q es1, fs.node q = some (.dir es1) → ∃ es2, (fs.create_dir p).2.node q = some (.dir es2)) := by
  obtain ⟨k, hk⟩ : ∃ k, p.length = k + 1 :=
    ⟨p.length - 1, by have := List.length_pos.2 hp; omega⟩
  have hm : fs.mkdirs p (p.length + 1) = some ((fs.set p (some (.dir []))).link p) := by
    rw [FS.mkdirs]
    simp only [hnone, hp, if_false]
    rw [hk, FS.mkdirs]
    simp only [hpar]
  have hcd : fs.create_dir p = (true, (fs.set p (some (.dir []))).link p) := by
    unfold FS.create_dir
    rw [hm]
  rw [hcd]
  refine ⟨rfl, ?_, ?_, ?_⟩
  · show ((fs.set p (some (.dir []))).link p).node p = _
    rw [FS.link_node_other _ _ _ (Ne.symm (dropLast_ne_self hp))]
    simp [FS.set_node]
  · intro q hq1 hq2
    show ((fs.set p (some (.dir []))).link p).node q = _
    rw [FS.link_node_other _ _ _ hq2]
    simp [FS.set_node, hq1]
  · intro q es1 hq
    have hqp : q ≠ p := by
      intro h; rw [h, hnone] at hq; cases hq
    exact FS.link_node_dir _ p q es1 (by simp [FS.set_node, hqp, hq])

/-- Writing a regular file in a directory, at a name that is not a
directory: the file holds the bytes, the name is in the listing (appended
when new), and nothing else changes. -/
theorem FS.put_file_spec (fs : FS) (d : Path) (x : String) (b : List UInt8)
    (es : List String) (hd : fs.node d = some (.dir es))
    (hx : ∀ es1, fs.node (d ++ [x]) ≠ some (.dir es1)) :
    (fs.put_file (d ++ [x]) b).1 = true ∧
    (fs.put_file (d ++ [x]) b).2.node (d ++ [x]) = some (.file b) ∧
    (fs.put_file (d ++ [x]) b).2.node d = some (.dir (if x ∈ es then es else es ++ [x])) ∧
    (∀ q, q ≠ d ++ [x] → q ≠ d → (fs.put_file (d ++ [x]) b).2.node q = fs.node q) := by
  have hne : d ++ [x] ≠ [] := by simp
  have hdne : d ≠ d ++ [x] := by
    intro h
    have := congrArg List.length h
    simp at this
  have hpf : fs.put_file (d ++ [x]) b
      = (true, (fs.set (d ++ [x]) (some (.file b))).link (d ++ [x])) := by
    unfold FS.put_file
    simp only [hne, if_false, List.dropLast_concat, hd]
  rw [hpf]
  refine ⟨rfl, ?_, ?_, ?_⟩
  · show ((fs.set (d ++ [x]) (some (.file b))).link (d ++ [x])).node (d ++ [x]) = _
    rw [FS.link_node_other _ _ _ (by simp)]
    simp [FS.set_node]
  · show ((fs.set (d ++ [x]) (some (.file b))).link (d ++ [x])).node d = _
    apply FS.link_node_parent
    simp [FS.set_node, hdne, hd]
  · intro q hq1 hq2
    show ((fs.set (d ++ [x]) (some (.file b))).link (d ++ [x])).node q = _
    rw [FS.link_node_other _ _ _ (by simpa using hq2)]
    simp [FS.set_node, hq1]

/-- Writing a non-empty item into an existing regular file. -/
theorem FS.fwrite_spec (fs : FS) (p : Path) (off : Nat) (data b : List UInt8)
    (hdata : data ≠ []) (hp : fs.node p = some (.file b)) :
    (fs.fwrite p off data).1 = 1 ∧
    (fs.fwrite p off data).2.node p = some (.file
      ((b ++ List.replicate (off - b.length) 0).take off ++ data ++ b.drop (off + data.length))) ∧
    (∀ q, q ≠ p → (fs.fwrite p off data).2.node q = fs.node q) := by
  have hlen : data.length ≠ 0 := by
    intro h; exact hdata (List.length_eq_zero.1 h)
  unfold FS.fwrite
  simp only [hlen, if_false, hp]
  refine ⟨trivial, by simp [FS.set_node], ?_⟩
  intro q hq
  simp [FS.set_node, hq]

/-! ## Decimal names of the ordinals -/

theorem digitChar_spec (d : Nat) (h : d < 10) :
    (Nat.digitChar d).isDigit = true ∧ (Nat.digitChar d).toNat - 48 = d ∧
    isspace (Nat.digitChar d) = false ∧ Nat.digitChar d ≠ '-' ∧ Nat.digitChar d ≠ '+' := by
  interval_cases d <;> decide

theorem toDigitsCore_isDigit (fuel : Nat) :
    ∀ (n : Nat) (ds : List Char), (∀ c ∈ ds, c.isDigit = true) →
      ∀ c ∈ Nat.toDigitsCore 10 fuel n ds, c.isDigit = true := by
  induction fuel with
  | zero => intro n ds h c hc; exact h c (by simpa [Nat.toDigitsCore] using hc)
  | succ fuel ih =>
    intro n ds h c hc
    have hd := (digitChar_spec (n % 10) (Nat.mod_lt _ (by decide))).1
    have hds : ∀ c ∈ Nat.digitChar (n % 10) :: ds, c.isDigit = true := by
      intro c hc
      rcases List.mem_cons.1 hc with rfl | hc
      · exact hd
      · exact h c hc
    simp only [Nat.toDigitsCore] at hc
    split at hc
    · exact hds c hc
    · exact ih _ _ hds c hc

theorem toDigitsCore_ne_nil (fuel n : Nat) (ds : List Char) (h : 0 < fuel) :
    Nat.toDigitsCore 10 fuel n ds ≠ [] := by
  induction fuel generalizing n ds with
  | zero => omega
  | succ fuel ih =>
    simp only [Nat.toDigitsCore]
    split
    · simp
    · rename_i hn
      rcases Nat.eq_zero_or_pos fuel with h0 | h0
      · subst h0
        simp [Nat.toDigitsCore]
      · exact ih _ _ h0

theorem toDigitsCore_value (fuel : Nat) :
    ∀ (n : Nat) (ds : List Char), n < fuel →
      (Nat.toDigitsCore 10 fuel n ds).foldl (fun acc c => acc * 10 + (c.toNat - 48)) 0
        = ds.foldl (fun acc c => acc * 10 + (c.toNat - 48)) n := by
  induction fuel with
  | zero => intro n ds h; omega
  | succ fuel ih =>
    intro n ds h
    have hd := (digitChar_spec (n % 10) (Nat.mod_lt _ (by decide))).2.1
    simp only [Nat.toDigitsCore]
    split
    · rename_i h0
      have hn : n % 10 = n := by omega
      simp only [List.foldl_cons, hd, Nat.zero_mul, Nat.zero_add]
      rw [hn]
    · rename_i h0
      have hlt : n / 10 < fuel := by omega
      rw [ih _ _ hlt]
      simp only [List.foldl_cons, hd]
      congr 1
      omega

theorem itoa_isDigit (n : Nat) : ∀ c ∈ (itoa n).data, c.isDigit = true := by
  intro c hc
  exact toDigitsCore_isDigit (n + 1) n [] (by simp) c (by simpa [itoa, Nat.toDigits] using hc)

theorem itoa_ne_header (n : Nat) : itoa n ≠ "header" := by
  intro h
  have := itoa_isDigit n 'h' (by rw [h]; decide)
  revert this
  decide

theorem isDigit_not_special (c : Char) (h : c.isDigit = true) :
    isspace c = false ∧ c ≠ '-' ∧ c ≠ '+' := by
  refine ⟨?_, ?_, ?_⟩
  · by_contra hs
    have hs2 : isspace c = true := by simpa using hs
    simp only [isspace, Bool.or_eq_true, decide_eq_true_eq] at hs2
    rcases hs2 with ((((rfl | rfl) | rfl) | rfl) | rfl) | rfl <;> revert h <;> decide
  · rintro rfl; revert h; decide
  · rintro rfl; revert h; decide

/-- Reading back the decimal name of an ordinal with `atoi` gives the
ordinal. -/
theorem atoi_itoa (n : Nat) : atoi (itoa n) = (n : Int) := by
  have hdig := itoa_isDigit n
  have hne : (itoa n).data ≠ [] := by
    simpa [itoa, Nat.toDigits] using toDigitsCore_ne_nil (n + 1) n [] (by omega)
  obtain ⟨c, cs, hcs⟩ : ∃ c cs, (itoa n).data = c :: cs := by
    cases h : (itoa n).data with
    | nil => exact absurd h hne
    | cons c cs => exact ⟨c, cs, rfl⟩
  have hc : c.isDigit = true := hdig c (by simp [hcs])
  obtain ⟨hsp, hminus, hplus⟩ := isDigit_not_special c hc
  have htw : (itoa n).data.takeWhile Char.isDigit = (itoa n).data :=
    List.takeWhile_eq_self_iff.2 hdig
  have hval : digits_value (itoa n).data = (n : Int) := by
    unfold digits_value
    rw [htw]
    have := toDigitsCore_value (n + 1) n [] (by omega)
    simp only [List.foldl_nil] at this
    simp only [itoa, Nat.toDigits, List.asString]
    rw [this]
  unfold atoi
  have hdw : (itoa n).data.dropWhile isspace = (itoa n).data := by
    rw [hcs]
    simp [List.dropWhile_cons, hsp]
  simp only [hdw]
  rw [hcs] at hval ⊢
  simp only [List.head?_cons, Option.some.injEq, hminus, hplus, if_false]
  exact hval

theorem itoa_injective {m n : Nat} (h : itoa m = itoa n) : m = n := by
  have := congrArg atoi h
  rw [atoi_itoa, atoi_itoa] at this
  exact_mod_cast this

/-! ## Creation of a logical file on the model of the disks -/

theorem append_ne_dropLast {D : Path} (hD : D ≠ []) (t : Path) : D ++ t ≠ D.dropLast := by
  intro h
  have := congrArg List.length h
  simp only [List.length_append, List.length_dropLast] at this
  have : 0 < D.length := List.length_pos.2 hD
  omega

theorem snoc_ne_self (D : Path) (x : String) : D ++ [x] ≠ D := by
  intro h
  have := congrArg List.length h
  simp at this

/-- One turn of the loop of `create_file` on the model of the disks, for a
fragment directory that is missing and whose parent is a directory. -/
theorem create_loop_step (header : List UInt8) (hh : header ≠ []) (size : Nat)
    (idxs : List Nat) (i : Nat) (rest : List Nat) (fs : FS) (f : safs_file)
    (es : List String)
    (hne : dir_at f.native_dirs idxs i ≠ [])
    (hpar : fs.node (dir_at f.native_dirs idxs i).dropLast = some (.dir es))
    (hfresh : ∀ q, fs.node (dir_at f.native_dirs idxs i ++ q) = none) :
    ∃ fs1 : FS,
      create_loop fsPrims header size idxs (i :: rest) fs f
        = create_loop fsPrims header size idxs rest fs1
            (if i = 0 then
              { f with header_file := dir_at f.native_dirs idxs i ++ ["header"] } else f) ∧
      part_created fs1 (dir_at f.native_dirs idxs i) i header size ∧
      (∀ q, q ≠ (dir_at f.native_dirs idxs i).dropLast →
        (∀ t, q ≠ dir_at f.native_dirs idxs i ++ t) → fs1.node q = fs.node q) ∧
      (∀ q es1, fs.node q = some (.dir es1) → ∃ es2, fs1.node q = some (.dir es2)) := by
  generalize hD : dir_at f.native_dirs idxs i = D at hne hpar hfresh ⊢
  have hDnone : fs.node D = none := by simpa using hfresh []
  obtain ⟨c1, c2, c3, c4⟩ := FS.create_dir_spec fs D es hne hDnone hpar
  -- the state after `create_dir`
  generalize hfs1 : (fs.create_dir D).2 = fs1 at c1 c2 c3 c4
  have hchild1 : ∀ x, fs1.node (D ++ [x]) = none := by
    intro x
    rw [c3 _ (snoc_ne_self D x) (append_ne_dropLast hne [x])]
    exact hfresh [x]
  by_cases hi : i = 0
  · subst hi
    -- header file
    obtain ⟨o1, o2, o3, o4⟩ := FS.put_file_spec fs1 D "header" [] [] c2
      (by intro es1; rw [hchild1]; simp)
    generalize hfs2 : (fs1.put_file (D ++ ["header"]) []).2 = fs2 at o1 o2 o3 o4
    obtain ⟨w1, w2, w3⟩ := FS.fwrite_spec fs2 (D ++ ["header"]) 0 header [] hh o2
    generalize hfs3 : (fs2.fwrite (D ++ ["header"]) 0 header).2 = fs3 at w1 w2 w3
    have h0ne : itoa 0 ≠ "header" := itoa_ne_header 0
    have hD3 : fs3.node D = some (.dir ["header"]) := by
      rw [w3 _ (snoc_ne_self D "header").symm, o3]
      simp
    have hx3 : ∀ es1, fs3.node (D ++ [itoa 0]) ≠ some (.dir es1) := by
      intro es1
      rw [w3 _ (by simpa using h0ne), o4 _ (by simpa using h0ne) (snoc_ne_self D _), hchild1]
      simp
    obtain ⟨n1, n2, n3, n4⟩ := FS.put_file_spec fs3 D (itoa 0) (List.replicate size 0)
      ["header"] hD3 hx3
    generalize hfs4 : (fs3.put_file (D ++ [itoa 0]) (List.replicate size 0)).2 = fs4
      at n1 n2 n3 n4
    refine ⟨fs4, ?_, ⟨?_, n2, ?_⟩, ?_, ?_⟩
    · rw [create_loop]
      simp only [hD, fsPrims, hfs1, c1, Bool.not_true, Bool.false_eq_true, if_false, if_true,
        hfs2, o1, hfs3, w1, ne_eq, not_true_eq_false, FS.create_file, hfs4, n1]
    · rw [n3]
      simp [h0ne]
    · rw [n4 _ (by simpa using h0ne.symm) (snoc_ne_self D _), w2]
      simp
    · intro q hq1 hq2
      have hqD : q ≠ D := by simpa using hq2 []
      rw [n4 _ (hq2 _) hqD, w3 _ (hq2 _), o4 _ (hq2 _) hqD, c3 _ hqD hq1]
    · intro q es1 hq
      obtain ⟨es2, h2⟩ := c4 q es1 hq
      by_cases hqD : q = D
      · subst hqD; exact ⟨_, n3⟩
      · have hqh : q ≠ D ++ ["header"] := by
          intro h; rw [h, hchild1] at h2; cases h2
        have hq0 : q ≠ D ++ [itoa 0] := by
          intro h; rw [h, hchild1] at h2; cases h2
        exact ⟨es2, by rw [n4 _ hq0 hqD, w3 _ hqh, o4 _ hqh hqD, h2]⟩
  · have hine : itoa i ≠ "header" := itoa_ne_header i
    obtain ⟨n1, n2, n3, n4⟩ := FS.put_file_spec fs1 D (itoa i) (List.replicate size 0) [] c2
      (by intro es1; rw [hchild1]; simp)
    generalize hfs4 : (fs1.put_file (D ++ [itoa i]) (List.replicate size 0)).2 = fs4
      at n1 n2 n3 n4
    refine ⟨fs4, ?_, ⟨?_, n2, ?_⟩, ?_, ?_⟩
    · rw [create_loop]
      simp only [hD, fsPrims, hfs1, c1, Bool.not_true, Bool.false_eq_true, if_false, hi,
        FS.create_file, hfs4, n1]
    · rw [n3]; simp [hi]
    · rw [n4 _ (by simpa using hine.symm) (snoc_ne_self D _), hchild1]
      simp [hi]
    · intro q hq1 hq2
      have hqD : q ≠ D := by simpa using hq2 []
      rw [n4 _ (hq2 _) hqD, c3 _ hqD hq1]
    · intro q es1 hq
      obtain ⟨es2, h2⟩ := c4 q es1 hq
      by_cases hqD : q = D
      · subst hqD; exact ⟨_, n3⟩
      · have hq0 : q ≠ D ++ [itoa i] := by
          intro h; rw [h, hchild1] at h2; cases h2
        exact ⟨es2, by rw [n4 _ hq0 hqD, h2]⟩

/-- The loop of `create_file` on the model of the disks, over positions whose
fragment directories are missing, have a directory as parent and do not lie
inside one another: the loop succeeds, every fragment directory is created
with its data file (and the header at position 0), and nothing outside the
fragment directories and their parents changes. -/
theorem create_loop_spec (header : List UInt8) (hh : header ≠ []) (size : Nat)
    (idxs : List Nat) (nd : List part_file_info) :
    ∀ (is : List Nat) (fs : FS) (f : safs_file), f.native_dirs = nd →
      (∀ i ∈ is, dir_at nd idxs i ≠ [] ∧
        (∃ es, fs.node (dir_at nd idxs i).dropLast = some (.dir es)) ∧
        ∀ q, fs.node (dir_at nd idxs i ++ q) = none) →
      is.Pairwise (fun i j => ∀ q t, dir_at nd idxs i ++ q ≠ dir_at nd idxs j ++ t) →
      ∃ fs1 : FS,
        create_loop fsPrims header size idxs is fs f
          = (true, fs1, { f with header_file :=
              if 0 ∈ is then dir_at nd idxs 0 ++ ["header"] else f.header_file }) ∧
        (∀ i ∈ is, part_created fs1 (dir_at nd idxs i) i header size) ∧
        (∀ q, (∀ i ∈ is, q ≠ (dir_at nd idxs i).dropLast ∧ ∀ t, q ≠ dir_at nd idxs i ++ t) →
          fs1.node q = fs.node q) ∧
        (∀ q es1, fs.node q = some (.dir es1) → ∃ es2, fs1.node q = some (.dir es2)) := by
  intro is
  induction is with
  | nil =>
    intro fs f _ _ _
    exact ⟨fs, by simp [create_loop], by simp, by simp, fun q es1 h => ⟨es1, h⟩⟩
  | cons i rest ih =>
    intro fs f hf hpre hpw
    subst hf
    obtain ⟨hne, ⟨es, hpar⟩, hfresh⟩ := hpre i (List.mem_cons_self _ _)
    obtain ⟨hhead, htail⟩ := List.pairwise_cons.1 hpw
    obtain ⟨fs1, hstep, hcreated, hframe, hdirs⟩ :=
      create_loop_step header hh size idxs i rest fs f es hne hpar hfresh
    have hpre1 : ∀ j ∈ rest, dir_at f.native_dirs idxs j ≠ [] ∧
        (∃ es, fs1.node (dir_at f.native_dirs idxs j).dropLast = some (.dir es)) ∧
        ∀ q, fs1.node (dir_at f.native_dirs idxs j ++ q) = none := by
      intro j hj
      obtain ⟨hnej, ⟨esj, hparj⟩, hfreshj⟩ := hpre j (List.mem_cons_of_mem _ hj)
      refine ⟨hnej, hdirs _ esj hparj, ?_⟩
      intro q
      rw [hframe]
      · exact hfreshj q
      · intro h
        have h2 := hfreshj q
        rw [h, hpar] at h2
        exact Option.noConfusion h2
      · intro t h
        exact hhead j hj t q h.symm
    obtain ⟨fs2, hloop, hcreated2, hframe2, hdirs2⟩ :=
      ih fs1 (if i = 0 then { f with header_file := dir_at f.native_dirs idxs i ++ ["header"] }
        else f) (by split <;> rfl) hpre1 htail
    -- a path inside the fragment directory of position `i` is not touched later
    have hkeep : ∀ t, fs2.node (dir_at f.native_dirs idxs i ++ t) = fs1.node (dir_at f.native_dirs idxs i ++ t) := by
      intro t
      apply hframe2
      intro j hj
      obtain ⟨_, ⟨esj, hparj⟩, _⟩ := hpre j (List.mem_cons_of_mem _ hj)
      refine ⟨?_, fun t2 h => hhead j hj t t2 h⟩
      intro h
      rw [← h, hfresh t] at hparj
      exact Option.noConfusion hparj
    refine ⟨fs2, ?_, ?_, ?_, ?_⟩
    · rw [hstep, hloop]
      by_cases hi : i = 0
      · subst hi
        by_cases h0 : 0 ∈ rest <;> simp [h0]
      · have : (0 ∈ i :: rest) ↔ (0 ∈ rest) := by
          simp [List.mem_cons, Ne.symm hi]
        by_cases h0 : 0 ∈ rest <;> simp [hi, h0, Ne.symm hi]
    · intro j hj
      rcases List.mem_cons.1 hj with rfl | hj
      · obtain ⟨p1, p2, p3⟩ := hcreated
        refine ⟨?_, ?_, ?_⟩
        · have := hkeep []
          simp only [List.append_nil] at this
          rw [this, p1]
        · rw [hkeep, p2]
        · rw [hkeep, p3]
      · exact hcreated2 j hj
    · intro q hq
      rw [hframe2 q (fun j hj => hq j (List.mem_cons_of_mem _ hj))]
      exact hframe q (hq i (List.mem_cons_self _ _)).1 (hq i (List.mem_cons_self _ _)).2
    · intro q es1 h
      obtain ⟨es2, h2⟩ := hdirs q es1 h
      exact hdirs2 q es2 h2

/-! ## From the roster and the placement permutation to the positions -/

theorem perm_getD_lt {n : Nat} {idxs : List Nat} (hp : idxs.Perm (List.range n)) {i : Nat}
    (hi : i < n) : idxs.getD i 0 < n := by
  have hlen : idxs.length = n := by simpa using hp.length_eq
  have hi2 : i < idxs.length := by omega
  have hmem : idxs.getD i 0 ∈ idxs := by
    rw [List.getD_eq_getElem _ _ hi2]
    exact List.getElem_mem hi2
  simpa using hp.subset hmem

theorem perm_getD_inj {n : Nat} {idxs : List Nat} (hp : idxs.Perm (List.range n)) {i j : Nat}
    (hi : i < n) (hj : j < n) (h : idxs.getD i 0 = idxs.getD j 0) : i = j := by
  have hlen : idxs.length = n := by simpa using hp.length_eq
  have hi2 : i < idxs.length := by omega
  have hj2 : j < idxs.length := by omega
  have hnd : idxs.Nodup := hp.nodup_iff.2 (List.nodup_range n)
  rw [List.getD_eq_getElem _ _ hi2, List.getD_eq_getElem _ _ hj2] at h
  exact (hnd.getElem_inj_iff).1 h

theorem map_getD_range {α : Type} (l : List α) (dflt : α) :
    (List.range l.length).map (fun j => l.getD j dflt) = l := by
  apply List.ext_getElem
  · simp
  · intro i h1 h2
    simp [List.getD_eq_getElem?_getD, List.getElem?_eq_getElem h2]

/-- Reading the fragment descriptors in the order of a placement permutation
gives a rearrangement of the descriptors. -/
theorem positions_perm {α : Type} (l : List α) (dflt : α) (idxs : List Nat)
    (hp : idxs.Perm (List.range l.length)) :
    ((List.range l.length).map (fun i => l.getD (idxs.getD i 0) dflt)).Perm l := by
  have hlen : idxs.length = l.length := by simpa using hp.length_eq
  have h1 : (List.range l.length).map (fun i => l.getD (idxs.getD i 0) dflt)
      = ((List.range l.length).map (fun i => idxs.getD i 0)).map (fun j => l.getD j dflt) := by
    simp [List.map_map, Function.comp]
  have h2 : (List.range l.length).map (fun i => idxs.getD i 0) = idxs := by
    rw [← hlen]; exact map_getD_range idxs 0
  rw [h1, h2]
  refine (hp.map _).trans ?_
  rw [map_getD_range]

theorem init_native_dirs_length (conf : List part_file_info) (name : String) :
    (safs_file.init conf name).native_dirs.length = conf.length := by
  simp [safs_file.init]

theorem init_getD_file_name (conf : List part_file_info) (name : String) (j : Nat)
    (hj : j < conf.length) :
    ((safs_file.init conf name).native_dirs.getD j
        { file_name := [], disk_id := 0, node_id := 0 }).file_name
      = (conf.map (fun d => d.file_name)).getD j [] ++ [name] := by
  have h1 : j < (safs_file.init conf name).native_dirs.length := by
    rw [init_native_dirs_length]; exact hj
  rw [List.getD_eq_getElem _ _ h1, List.getD_eq_getElem _ _ (by simpa using hj)]
  simp [safs_file.init]

/-- Two fragment directories under different roots share no path, when the
roots are directories and nothing exists at or below the fragment
directories. -/
theorem frag_disjoint (fs : FS) (r1 r2 : Path) (name : String) (es1 es2 : List String)
    (h1 : fs.node r1 = some (.dir es1)) (h2 : fs.node r2 = some (.dir es2))
    (hf1 : ∀ q, fs.node (r1 ++ [name] ++ q) = none)
    (hf2 : ∀ q, fs.node (r2 ++ [name] ++ q) = none) (hne : r1 ≠ r2) :
    ∀ q t, r1 ++ [name] ++ q ≠ r2 ++ [name] ++ t := by
  intro q t h
  simp only [List.append_assoc, List.singleton_append] at h
  rcases List.append_eq_append_iff.1 h with ⟨a, ha, hb⟩ | ⟨c, hc, hd⟩
  · cases a with
    | nil => simp at ha; exact hne ha.symm
    | cons x a =>
      simp only [List.cons_append, List.cons.injEq] at hb
      obtain ⟨hx, _⟩ := hb
      subst hx
      have := hf1 a
      rw [show r1 ++ [name] ++ a = r2 by rw [ha]; simp] at this
      rw [this] at h2
      cases h2
  · cases c with
    | nil => simp at hc; exact hne hc
    | cons x c =>
      simp only [List.cons_append, List.cons.injEq] at hd
      obtain ⟨hx, _⟩ := hd
      subst hx
      have := hf2 c
      rw [show r2 ++ [name] ++ c = r1 by rw [hc]; simp] at this
      rw [this] at h1
      cases h1

theorem getD_mem_map {conf : List part_file_info} {j : Nat} (hj : j < conf.length) :
    ∃ r ∈ conf, (conf.map (fun d => d.file_name)).getD j [] = r.file_name := by
  refine ⟨conf[j], List.getElem_mem hj, ?_⟩
  rw [List.getD_eq_getElem _ _ (by simpa using hj)]
  simp

/-- On fresh disks `create_file` succeeds for every placement permutation:
the object remembers the header path in the fragment directory of position 0
and every position has its fragment directory with its data file. -/
theorem create_file_created (image : safs_header → List UInt8) (fs : FS)
    (conf : List part_file_info) (name : String) (file_size : Nat)
    (block_size mapping_option : Int) (idxs : List Nat)
    (hn : 1 ≤ conf.length) (hfresh : fresh_disks fs conf name)
    (hperm : idxs.Perm (List.range conf.length))
    (himg : image (new_header file_size block_size mapping_option) ≠ []) :
    ∃ fs1 : FS,
      (safs_file.init conf name).create_file fsPrims image fs file_size block_size
          mapping_option idxs
        = some (true, fs1,
            { (safs_file.init conf name) with
              header_file := dir_at (safs_file.init conf name).native_dirs idxs 0 ++ ["header"] }) ∧
      (∀ i < conf.length,
        part_created fs1 (dir_at (safs_file.init conf name).native_dirs idxs i) i
          (image (new_header file_size block_size mapping_option))
          (size_per_disk file_size conf.length)) ∧
      (∀ i < conf.length, ∃ r ∈ conf,
        dir_at (safs_file.init conf name).native_dirs idxs i = r.file_name ++ [name]) := by
  obtain ⟨hroots, hnone, hdistinct⟩ := hfresh
  have hlen := init_native_dirs_length conf name
  have hdir : ∀ i < conf.length, dir_at (safs_file.init conf name).native_dirs idxs i
      = (conf.map (fun d => d.file_name)).getD (idxs.getD i 0) [] ++ [name] := by
    intro i hi
    exact init_getD_file_name conf name _ (perm_getD_lt hperm hi)
  have hdir2 : ∀ i < conf.length, ∃ r ∈ conf,
      dir_at (safs_file.init conf name).native_dirs idxs i = r.file_name ++ [name] := by
    intro i hi
    obtain ⟨r, hr, hrr⟩ := getD_mem_map (perm_getD_lt hperm hi)
    exact ⟨r, hr, by rw [hdir i hi, hrr]⟩
  have hpre : ∀ i ∈ List.range conf.length,
      dir_at (safs_file.init conf name).native_dirs idxs i ≠ [] ∧
      (∃ es, fs.node (dir_at (safs_file.init conf name).native_dirs idxs i).dropLast
        = some (.dir es)) ∧
      ∀ q, fs.node (dir_at (safs_file.init conf name).native_dirs idxs i ++ q) = none := by
    intro i hi
    obtain ⟨r, hr, hrr⟩ := hdir2 i (List.mem_range.1 hi)
    rw [hrr]
    refine ⟨by simp, ?_, fun q => hnone r hr q⟩
    simpa using hroots r hr
  have hpw : (List.range conf.length).Pairwise (fun i j => ∀ q t,
      dir_at (safs_file.init conf name).native_dirs idxs i ++ q
        ≠ dir_at (safs_file.init conf name).native_dirs idxs j ++ t) := by
    refine List.Pairwise.imp_of_mem ?_ (List.pairwise_lt_range conf.length)
    intro i j hi hj hij
    have hi2 := List.mem_range.1 hi
    have hj2 := List.mem_range.1 hj
    obtain ⟨r1, hr1, hrr1⟩ := getD_mem_map (perm_getD_lt hperm hi2)
    obtain ⟨r2, hr2, hrr2⟩ := getD_mem_map (perm_getD_lt hperm hj2)
    obtain ⟨es1, he1⟩ := hroots r1 hr1
    obtain ⟨es2, he2⟩ := hroots r2 hr2
    rw [hdir i hi2, hdir j hj2, hrr1, hrr2]
    apply frag_disjoint fs r1.file_name r2.file_name name es1 es2 he1 he2
      (hnone r1 hr1) (hnone r2 hr2)
    intro heq
    rw [← hrr1, ← hrr2] at heq
    have h1 : idxs.getD i 0 < (conf.map (fun d => d.file_name)).length := by
      simpa using perm_getD_lt hperm hi2
    have h2 : idxs.getD j 0 < (conf.map (fun d => d.file_name)).length := by
      simpa using perm_getD_lt hperm hj2
    rw [List.getD_eq_getElem _ _ h1, List.getD_eq_getElem _ _ h2] at heq
    have := (hdistinct.getElem_inj_iff).1 heq
    have := perm_getD_inj hperm hi2 hj2 this
    omega
  obtain ⟨fs1, hloop, hcreated, _, _⟩ :=
    create_loop_spec (image (new_header file_size block_size mapping_option)) himg
      (size_per_disk file_size conf.length) idxs (safs_file.init conf name).native_dirs
      (List.range conf.length) fs (safs_file.init conf name) rfl hpre hpw
  refine ⟨fs1, ?_, fun i hi => hcreated i (List.mem_range.2 hi), hdir2⟩
  have h0 : 0 ∈ List.range conf.length := List.mem_range.2 (by omega)
  have hne : (safs_file.init conf name).native_dirs.length ≠ 0 := by rw [hlen]; omega
  unfold safs_file.create_file
  simp only [hne, if_false, hlen]
  rw [hloop, if_pos h0, if_neg (by omega)]

/-! ## The state `create_file` leaves, read back by `exist` and `get_size` -/

theorem part_created_reads {fs : FS} {d : Path} {i : Nat} {header : List UInt8} {size : Nat}
    (h : part_created fs d i header size) :
    fsPrims.dir_exist fs d = true ∧
    part_files fsPrims fs d = [itoa i] ∧
    fsPrims.get_size fs (d ++ [itoa i]) = (size : Int) ∧
    fsPrims.file_exist fs d = true ∧
    ("header" ∈ fsPrims.read_all_files fs d ↔ i = 0) ∧
    (fsPrims.file_exist fs (d ++ ["header"]) = true ↔ i = 0) ∧
    itoa i ∈ fsPrims.read_all_files fs d := by
  obtain ⟨h1, h2, h3⟩ := h
  have hne := itoa_ne_header i
  refine ⟨by simp [fsPrims, FS.dir_exist, h1], ?_, by simp [fsPrims, FS.get_size, h2],
    by simp [fsPrims, FS.file_exist, h1], ?_, ?_, ?_⟩
  · by_cases hi : i = 0
    · simp [part_files, fsPrims, FS.read_all_files, h1, hi, erase_header_file]
      simpa [hi] using hne
    · simp [part_files, fsPrims, FS.read_all_files, h1, hi]
  · by_cases hi : i = 0
    · simp [fsPrims, FS.read_all_files, h1, hi]
    · simp [fsPrims, FS.read_all_files, h1, hi, hne.symm]
  · by_cases hi : i = 0
    · simp [fsPrims, FS.file_exist, h3, hi]
    · simp [fsPrims, FS.file_exist, h3, hi]
  · by_cases hi : i = 0
    · simp [fsPrims, FS.read_all_files, h1, hi]
    · simp [fsPrims, FS.read_all_files, h1, hi]

/-- Every fragment descriptor sits at some position of the placement. -/
theorem mem_native_dirs_position (nd : List part_file_info) (idxs : List Nat)
    (hperm : idxs.Perm (List.range nd.length)) (d : part_file_info) (hd : d ∈ nd) :
    ∃ i < nd.length,
      d = nd.getD (idxs.getD i 0) { file_name := [], disk_id := 0, node_id := 0 } := by
  have hp := positions_perm nd { file_name := [], disk_id := 0, node_id := 0 } idxs hperm
  have hm := hp.symm.subset hd
  simp only [List.mem_map, List.mem_range] at hm
  obtain ⟨i, hi, hid⟩ := hm
  exact ⟨i, hi, hid.symm⟩

theorem size_loop_const {σ : Type} (P : Prims σ) (s : σ) (c : Int)
    (ds : List part_file_info) :
    ∀ ret : Int,
      (∀ d ∈ ds, (part_files P s d.file_name).length = 1 ∧
        P.get_size s (d.file_name ++ [(part_files P s d.file_name).headD ""]) = c) →
      size_loop P s ds ret = some (ret + (ds.length : Int) * c) := by
  induction ds with
  | nil => intro ret _; simp [size_loop]
  | cons d ds ih =>
    intro ret h
    obtain ⟨h1, h2⟩ := h d (List.mem_cons_self _ _)
    rw [size_loop]
    simp only [h1, ne_eq, not_true_eq_false, if_false, h2]
    rw [ih _ (fun e he => h e (List.mem_cons_of_mem _ he))]
    simp only [List.length_cons, Nat.cast_add, Nat.cast_one]
    congr 1
    ring

/-- When every position holds what `create_file` leaves there, `exist` is
true and `get_size` is the number of disks times the fragment size. -/
theorem exist_and_size_of_created (fs : FS) (f : safs_file) (idxs : List Nat)
    (header : List UInt8) (size : Nat)
    (hperm : idxs.Perm (List.range f.native_dirs.length))
    (hc : ∀ i < f.native_dirs.length,
      part_created fs (dir_at f.native_dirs idxs i) i header size) :
    f.exist fsPrims fs = true ∧
    f.get_size fsPrims fs = some ((f.native_dirs.length : Int) * (size : Int)) := by
  have hpos := mem_native_dirs_position f.native_dirs idxs hperm
  have hex : f.exist fsPrims fs = true := by
    rw [exist_iff]
    constructor
    · intro d hd
      obtain ⟨i, hi, rfl⟩ := hpos d hd
      obtain ⟨r1, r2, _⟩ := part_created_reads (hc i hi)
      refine ⟨r1, ?_⟩
      show (part_files fsPrims fs (dir_at f.native_dirs idxs i)).length = 1
      rw [r2]
      rfl
    · have hp := positions_perm f.native_dirs { file_name := [], disk_id := 0, node_id := 0 }
        idxs hperm
      have hmap : ((List.range f.native_dirs.length).map (fun i =>
          f.native_dirs.getD (idxs.getD i 0)
            { file_name := [], disk_id := 0, node_id := 0 })).map (part_ordinal fsPrims fs)
          = (List.range f.native_dirs.length).map (Nat.cast : Nat → Int) := by
        rw [List.map_map]
        apply List.map_congr_left
        intro i hi
        obtain ⟨_, r2, _⟩ := part_created_reads (hc i (List.mem_range.1 hi))
        show atoi ((part_files fsPrims fs (dir_at f.native_dirs idxs i)).headD "") = (i : Int)
        rw [r2]
        exact atoi_itoa i
      have hnd : ((List.range f.native_dirs.length).map (Nat.cast : Nat → Int)).Nodup :=
        (List.nodup_range _).map Nat.cast_injective
      rw [← hmap] at hnd
      exact (hp.map (part_ordinal fsPrims fs)).nodup_iff.1 hnd
  refine ⟨hex, ?_⟩
  unfold safs_file.get_size
  simp only [hex, Bool.not_true, Bool.false_eq_true, if_false]
  rw [size_loop_const fsPrims fs (size : Int) f.native_dirs 0]
  · simp
  · intro d hd
    obtain ⟨i, hi, rfl⟩ := hpos d hd
    obtain ⟨_, r2, r3, _⟩ := part_created_reads (hc i hi)
    show (part_files fsPrims fs (dir_at f.native_dirs idxs i)).length = 1 ∧
      fsPrims.get_size fs (dir_at f.native_dirs idxs i
        ++ [(part_files fsPrims fs (dir_at f.native_dirs idxs i)).headD ""]) = (size : Int)
    rw [r2]
    exact ⟨rfl, r3⟩

/-! ## The fragment size -/

/-- The quotient `create_file` computes, `file_size / n` plus one when there
is a remainder, is the ceiling of `file_size / n`. -/
theorem ceil_div_eq (a n : Nat) (hn : 0 < n) :
    a / n + (if a % n > 0 then 1 else 0) = ⌈(a : ℚ) / (n : ℚ)⌉₊ := by
  have hnq : (0 : ℚ) < (n : ℚ) := by exact_mod_cast hn
  have hdm := Nat.div_add_mod a n
  have hlt := Nat.mod_lt a hn
  apply le_antisymm
  · by_cases hr : a % n > 0
    · simp only [hr, if_true]
      rw [Nat.add_one_le_iff, Nat.lt_ceil, lt_div_iff₀ hnq]
      have : a / n * n < a := by
        have : n * (a / n) < a := by omega
        rwa [Nat.mul_comm] at this
      exact_mod_cast this
    · simp only [hr, if_false, Nat.add_zero]
      have h0 : a % n = 0 := by omega
      have : (a : ℚ) / (n : ℚ) = ((a / n : ℕ) : ℚ) := by
        rw [div_eq_iff hnq.ne']
        have : a / n * n = a := by
          have : n * (a / n) = a := by omega
          rwa [Nat.mul_comm] at this
        exact_mod_cast this.symm
      rw [this, Nat.ceil_natCast]
  · rw [Nat.ceil_le, div_le_iff₀ hnq]
    have : a ≤ (a / n + (if a % n > 0 then 1 else 0)) * n := by
      by_cases hr : a % n > 0
      · simp only [hr, if_true]
        have : n * (a / n + 1) = n * (a / n) + n := by ring
        rw [Nat.mul_comm, this]
        omega
      · simp only [hr, if_false, Nat.add_zero]
        rw [Nat.mul_comm]
        omega
    exact_mod_cast this

/-- `ROUNDUP x base` is the least multiple of `base` that is at least `x`. -/
theorem ROUNDUP_least (x base : Nat) (hb : 0 < base) :
    base ∣ ROUNDUP x base ∧ x ≤ ROUNDUP x base ∧
    ∀ m, base ∣ m → x ≤ m → ROUNDUP x base ≤ m := by
  unfold ROUNDUP
  refine ⟨Nat.dvd_mul_left _ _, ?_, ?_⟩
  · have h1 := Nat.div_add_mod (x + base - 1) base
    have h2 := Nat.mod_lt (x + base - 1) hb
    have : (x + base - 1) / base * base = base * ((x + base - 1) / base) := Nat.mul_comm _ _
    omega
  · rintro m ⟨k, rfl⟩ hx
    rw [Nat.mul_comm base k]
    apply Nat.mul_le_mul_right
    rw [Nat.div_le_iff_le_mul_add_pred hb]
    have : base * k = k * base := Nat.mul_comm _ _
    omega

theorem size_per_disk_eq (file_size n : Nat) (hn : 0 < n) :
    size_per_disk file_size n = ROUNDUP ⌈(file_size : ℚ) / (n : ℚ)⌉₊ 512 := by
  unfold size_per_disk
  rw [ceil_div_eq file_size n hn]

/-- C3: for every disk count `n ≥ 1`, total size, block size and placement
permutation, `safs_file::create_file` on fresh disks (every root a directory,
no fragment directory of that name, distinct roots) returns true; `exist` is
then true and `get_size` returns `n * round_up(ceil(total_size / n), 512)`,
not the sentinel `-1`. -/
theorem C3_create_then_exist_and_size (image : safs_header → List UInt8) (fs : FS)
    (conf : List part_file_info) (name : String) (file_size : Nat)
    (block_size mapping_option : Int) (idxs : List Nat)
    (hn : 1 ≤ conf.length) (hfresh : fresh_disks fs conf name)
    (hperm : idxs.Perm (List.range conf.length))
    (himg : image (new_header file_size block_size mapping_option) ≠ []) :
    ∃ (fs1 : FS) (f1 : safs_file),
      (safs_file.init conf name).create_file fsPrims image fs file_size block_size
          mapping_option idxs = some (true, fs1, f1) ∧
      f1.exist fsPrims fs1 = true ∧
      f1.get_size fsPrims fs1
        = some ((conf.length : Int) * (ROUNDUP ⌈(file_size : ℚ) / (conf.length : ℚ)⌉₊ 512 : Nat)) ∧
      f1.get_size fsPrims fs1 ≠ some (-1) := by
  obtain ⟨fs1, hcreate, hcreated, _⟩ :=
    create_file_created image fs conf name file_size block_size mapping_option idxs hn hfresh
      hperm himg
  have hlen := init_native_dirs_length conf name
  obtain ⟨hex, hsize⟩ := exist_and_size_of_created fs1
    { (safs_file.init conf name) with
      header_file := dir_at (safs_file.init conf name).native_dirs idxs 0 ++ ["header"] }
    idxs (image (new_header file_size block_size mapping_option))
    (size_per_disk file_size conf.length)
    (by rw [show ({ (safs_file.init conf name) with
          header_file := dir_at (safs_file.init conf name).native_dirs idxs 0 ++ ["header"] }
          : safs_file).native_dirs = (safs_file.init conf name).native_dirs from rfl, hlen]
        exact hperm)
    (by intro i hi
        exact hcreated i (by
          rw [show ({ (safs_file.init conf name) with
            header_file := dir_at (safs_file.init conf name).native_dirs idxs 0 ++ ["header"] }
            : safs_file).native_dirs = (safs_file.init conf name).native_dirs from rfl, hlen]
            at hi
          exact hi))
  refine ⟨fs1, _, hcreate, hex, ?_, ?_⟩
  · rw [hsize]
    rw [show ({ (safs_file.init conf name) with
          header_file := dir_at (safs_file.init conf name).native_dirs idxs 0 ++ ["header"] }
          : safs_file).native_dirs = (safs_file.init conf name).native_dirs from rfl, hlen,
      size_per_disk_eq file_size conf.length (by omega)]
  · rw [hsize]
    intro h
    have h2 := Option.some.inj h
    have h3 : (0 : Int) ≤ ((safs_file.init conf name).native_dirs.length : Int)
        * ((size_per_disk file_size conf.length : Nat) : Int) := by positivity
    change ((safs_file.init conf name).native_dirs.length : Int)
        * ((size_per_disk file_size conf.length : Nat) : Int) = -1 at h2
    omega

theorem fresh_disks_fs4 (name : String) : fresh_disks fs4 conf4 name := by
  refine ⟨?_, ?_, by decide⟩
  · intro r hr
    simp only [conf4, List.mem_cons, List.mem_singleton, List.not_mem_nil, or_false] at hr
    rcases hr with rfl | rfl | rfl | rfl <;> exact ⟨[], by decide⟩
  · intro r hr q
    simp only [conf4, List.mem_cons, List.mem_singleton, List.not_mem_nil, or_false] at hr
    rcases hr with rfl | rfl | rfl | rfl <;> simp [fs4, FS.ofList, List.find?]

theorem C3_create_then_exist_and_size_witness :
    1 ≤ conf4.length ∧ fresh_disks fs4 conf4 "M" ∧
    [2, 3, 0, 1].Perm (List.range conf4.length) ∧
    image8 (new_header 4096 512 0) ≠ [] ∧
    (conf4.length : Int) * (ROUNDUP ⌈((4096 : Nat) : ℚ) / (conf4.length : ℚ)⌉₊ 512 : Nat) = 4096 ∧
    ∃ (fs1 : FS) (f1 : safs_file),
      (safs_file.init conf4 "M").create_file fsPrims image8 fs4 4096 512 0 [2, 3, 0, 1]
        = some (true, fs1, f1) ∧
      f1.exist fsPrims fs1 = true ∧
      f1.get_size fsPrims fs1
        = some ((conf4.length : Int)
            * (ROUNDUP ⌈((4096 : Nat) : ℚ) / (conf4.length : ℚ)⌉₊ 512 : Nat)) ∧
      f1.get_size fsPrims fs1 ≠ some (-1) :=
  ⟨by decide, fresh_disks_fs4 "M", by decide, by decide,
    by
      have h : ((4096 : Nat) : ℚ) / (conf4.length : ℚ) = ((1024 : Nat) : ℚ) := by
        simp [conf4]; norm_num
      rw [h, Nat.ceil_natCast]
      decide,
    C3_create_then_exist_and_size image8 fs4 conf4 "M" 4096 512 0 [2, 3, 0, 1] (by decide)
      (fresh_disks_fs4 "M") (by decide) (by decide)⟩

/-! ## Where the header is -/

/-- On a state where every position holds what `create_file` leaves there, an
object that has no cached header path finds the header in the fragment
directory of position 0. -/
theorem get_header_file_of_created (fs : FS) (f : safs_file) (idxs : List Nat)
    (header : List UInt8) (size : Nat) (hcache : f.header_file = [])
    (hn : 1 ≤ f.native_dirs.length)
    (hperm : idxs.Perm (List.range f.native_dirs.length))
    (hc : ∀ i < f.native_dirs.length,
      part_created fs (dir_at f.native_dirs idxs i) i header size) :
    (f.get_header_file fsPrims fs).1 = dir_at f.native_dirs idxs 0 ++ ["header"] := by
  have hpos := mem_native_dirs_position f.native_dirs idxs hperm
  have h0lt : idxs.getD 0 0 < f.native_dirs.length := perm_getD_lt hperm (by omega)
  have h0mem : f.native_dirs.getD (idxs.getD 0 0)
      { file_name := [], disk_id := 0, node_id := 0 } ∈ f.native_dirs := by
    rw [List.getD_eq_getElem _ _ h0lt]
    exact List.getElem_mem h0lt
  unfold safs_file.get_header_file
  simp only [hcache, ne_eq, not_true_eq_false, if_false]
  cases hfind : f.native_dirs.find? (fun d =>
      fsPrims.file_exist fs d.file_name && fsPrims.file_exist fs (d.file_name ++ ["header"])) with
  | none =>
    exfalso
    have := List.find?_eq_none.1 hfind _ h0mem
    obtain ⟨_, _, _, r4, _, r6, _⟩ := part_created_reads (hc 0 (by omega))
    have r6' := r6.2 rfl
    simp only [dir_at] at r4 r6'
    simp only [Bool.and_eq_true, not_and, Bool.not_eq_true] at this
    have h2 := this r4
    rw [r6'] at h2
    exact Bool.noConfusion h2
  | some d =>
    have hp := List.find?_some hfind
    have hd := List.mem_of_find?_eq_some hfind
    obtain ⟨i, hi, rfl⟩ := hpos d hd
    obtain ⟨_, _, _, _, _, r6, _⟩ := part_created_reads (hc i hi)
    simp only [Bool.and_eq_true] at hp
    have hi0 : i = 0 := r6.1 hp.2
    subst hi0
    rfl

/-- C5: for every disk count `n ≥ 1` and every placement permutation `p`,
after a successful `create_file` on fresh disks exactly one fragment
directory holds a file named "header": the one on disk `p[0]`, which also
holds the data file named "0"; `get_header_file`, on the creating object and
on a newly constructed `safs_file` of the same name, returns that path. -/
theorem C5_header_on_first_placed_disk (image : safs_header → List UInt8) (fs : FS)
    (conf : List part_file_info) (name : String) (file_size : Nat)
    (block_size mapping_option : Int) (idxs : List Nat)
    (hn : 1 ≤ conf.length) (hfresh : fresh_disks fs conf name)
    (hperm : idxs.Perm (List.range conf.length))
    (himg : image (new_header file_size block_size mapping_option) ≠ []) :
    ∃ (fs1 : FS) (f1 : safs_file),
      (safs_file.init conf name).create_file fsPrims image fs file_size block_size
          mapping_option idxs = some (true, fs1, f1) ∧
      f1.native_dirs.getD (idxs.getD 0 0) { file_name := [], disk_id := 0, node_id := 0 }
        ∈ f1.native_dirs ∧
      (∀ d ∈ f1.native_dirs,
        ("header" ∈ fsPrims.read_all_files fs1 d.file_name ↔
          d = f1.native_dirs.getD (idxs.getD 0 0)
            { file_name := [], disk_id := 0, node_id := 0 })) ∧
      (∀ d ∈ f1.native_dirs,
        (fsPrims.file_exist fs1 (d.file_name ++ ["header"]) = true ↔
          d = f1.native_dirs.getD (idxs.getD 0 0)
            { file_name := [], disk_id := 0, node_id := 0 })) ∧
      "0" ∈ fsPrims.read_all_files fs1 (dir_at f1.native_dirs idxs 0) ∧
      (f1.get_header_file fsPrims fs1).1 = dir_at f1.native_dirs idxs 0 ++ ["header"] ∧
      ((safs_file.init conf name).get_header_file fsPrims fs1).1
        = dir_at f1.native_dirs idxs 0 ++ ["header"] := by
  obtain ⟨fs1, hcreate, hcreated, _⟩ :=
    create_file_created image fs conf name file_size block_size mapping_option idxs hn hfresh
      hperm himg
  have hlen := init_native_dirs_length conf name
  have hperm2 : idxs.Perm (List.range (safs_file.init conf name).native_dirs.length) := by
    rw [hlen]; exact hperm
  have hc : ∀ i < (safs_file.init conf name).native_dirs.length,
      part_created fs1 (dir_at (safs_file.init conf name).native_dirs idxs i) i
        (image (new_header file_size block_size mapping_option))
        (size_per_disk file_size conf.length) := by
    intro i hi
    exact hcreated i (by rw [hlen] at hi; exact hi)
  have hpos := mem_native_dirs_position (safs_file.init conf name).native_dirs idxs hperm2
  have h0lt : idxs.getD 0 0 < (safs_file.init conf name).native_dirs.length :=
    perm_getD_lt hperm2 (by rw [hlen]; omega)
  have h0 : 0 < (safs_file.init conf name).native_dirs.length := by rw [hlen]; omega
  obtain ⟨_, _, _, _, q5, q6, q7⟩ := part_created_reads (hc 0 h0)
  refine ⟨fs1, _, hcreate, ?_, ?_, ?_, ?_, ?_, ?_⟩
  · show (safs_file.init conf name).native_dirs.getD (idxs.getD 0 0) _
      ∈ (safs_file.init conf name).native_dirs
    rw [List.getD_eq_getElem _ _ h0lt]
    exact List.getElem_mem h0lt
  · intro d hd
    constructor
    · intro hh
      obtain ⟨i, hi, rfl⟩ := hpos d hd
      obtain ⟨_, _, _, _, r5, _⟩ := part_created_reads (hc i hi)
      have hi0 : i = 0 := r5.1 hh
      subst hi0
      rfl
    · rintro rfl
      exact q5.2 rfl
  · intro d hd
    constructor
    · intro hh
      obtain ⟨i, hi, rfl⟩ := hpos d hd
      obtain ⟨_, _, _, _, _, r6, _⟩ := part_created_reads (hc i hi)
      have hi0 : i = 0 := r6.1 hh
      subst hi0
      rfl
    · rintro rfl
      exact q6.2 rfl
  · have : itoa 0 = "0" := by decide
    rw [← this]
    exact q7
  · simp [safs_file.get_header_file, dir_at]
  · exact get_header_file_of_created fs1 (safs_file.init conf name) idxs _ _ rfl h0 hperm2 hc

theorem C5_header_on_first_placed_disk_witness :
    1 ≤ conf4.length ∧ fresh_disks fs4 conf4 "M" ∧
    rot4_third.Perm (List.range conf4.length) ∧
    image8 (new_header 4096 512 0) ≠ [] ∧
    rot4_third.getD 0 0 = 2 ∧
    dir_at (safs_file.init conf4 "M").native_dirs rot4_third 0 = ["mnt", "d2", "M"] ∧
    ∃ (fs1 : FS) (f1 : safs_file),
      (safs_file.init conf4 "M").create_file fsPrims image8 fs4 4096 512 0 rot4_third
        = some (true, fs1, f1) ∧
      f1.native_dirs.getD (rot4_third.getD 0 0) { file_name := [], disk_id := 0, node_id := 0 }
        ∈ f1.native_dirs ∧
      (∀ d ∈ f1.native_dirs,
        ("header" ∈ fsPrims.read_all_files fs1 d.file_name ↔
          d = f1.native_dirs.getD (rot4_third.getD 0 0)
            { file_name := [], disk_id := 0, node_id := 0 })) ∧
      (∀ d ∈ f1.native_dirs,
        (fsPrims.file_exist fs1 (d.file_name ++ ["header"]) = true ↔
          d = f1.native_dirs.getD (rot4_third.getD 0 0)
            { file_name := [], disk_id := 0, node_id := 0 })) ∧
      "0" ∈ fsPrims.read_all_files fs1 (dir_at f1.native_dirs rot4_third 0) ∧
      (f1.get_header_file fsPrims fs1).1 = dir_at f1.native_dirs rot4_third 0 ++ ["header"] ∧
      ((safs_file.init conf4 "M").get_header_file fsPrims fs1).1
        = dir_at f1.native_dirs rot4_third 0 ++ ["header"] :=
  ⟨by decide, fresh_disks_fs4 "M", by decide, by decide, by decide, by decide,
    C5_header_on_first_placed_disk image8 fs4 conf4 "M" 4096 512 0 rot4_third (by decide)
      (fresh_disks_fs4 "M") (by decide) (by decide)⟩

/-! ## User metadata -/

theorem get_header_file_cached (fs : FS) (f : safs_file) :
    ((f.get_header_file fsPrims fs).2).header_file = (f.get_header_file fsPrims fs).1 := by
  unfold safs_file.get_header_file
  by_cases h : f.header_file = []
  · simp only [h, ne_eq, not_true_eq_false, if_false]
    split <;> simp [h]
  · simp [h]

theorem get_header_file_congr (fs fs1 : FS) (f : safs_file)
    (h : ∀ q, fsPrims.file_exist fs1 q = fsPrims.file_exist fs q) :
    f.get_header_file fsPrims fs1 = f.get_header_file fsPrims fs := by
  unfold safs_file.get_header_file
  simp only [h]

/-- The header path is stable under a second lookup, also after the header
file was rewritten. -/
theorem get_header_file_again (fs fs1 : FS) (f : safs_file)
    (h : ∀ q, fsPrims.file_exist fs1 q = fsPrims.file_exist fs q) :
    ((f.get_header_file fsPrims fs).2.get_header_file fsPrims fs1).1
      = (f.get_header_file fsPrims fs).1 := by
  by_cases hc : (f.get_header_file fsPrims fs).1 = []
  · have h2 : (f.get_header_file fsPrims fs).2 = f := by
      unfold safs_file.get_header_file at hc ⊢
      by_cases hf : f.header_file = []
      · simp only [hf, ne_eq, not_true_eq_false, if_false] at hc ⊢
        split
        · rename_i d hd
          rw [hd] at hc
          simp at hc
        · rfl
      · simp [hf]
    rw [h2, get_header_file_congr fs fs1 f h]
  · have hcached := get_header_file_cached fs f
    generalize (f.get_header_file fsPrims fs).2 = f1 at hcached
    generalize (f.get_header_file fsPrims fs).1 = hp at hcached hc
    unfold safs_file.get_header_file
    simp [hcached, hc]

theorem fsPrims_file_exist : fsPrims.file_exist = FS.file_exist := rfl

theorem fsPrims_fopen_rw : fsPrims.fopen_rw = FS.is_file := rfl

theorem fsPrims_fopen_r : fsPrims.fopen_r = FS.is_file := rfl

theorem fsPrims_get_size : fsPrims.get_size = FS.get_size := rfl

theorem fsPrims_fwrite : fsPrims.fwrite = FS.fwrite := rfl

theorem fsPrims_fread : fsPrims.fread = FS.fread := rfl

/-- C6 (as the code behaves), for a non-empty blob `M` and a header file that
holds at least `header_size` bytes: `set_user_metadata(M)` succeeds and
`get_user_metadata()` then returns `M` followed by the bytes the header file
held beyond offset `header_size + |M|` (nothing is truncated); it returns
exactly `M` when the file held no more than `header_size + |M|` bytes. -/
theorem C6_set_then_get_user_metadata (fs : FS) (f : safs_file) (header_size : Nat)
    (M b : List UInt8) (hM : M ≠ [])
    (hfile : fs.node (f.get_header_file fsPrims fs).1 = some (.file b))
    (hsize : header_size ≤ b.length) :
    ∃ (fs1 : FS) (f1 f2 : safs_file),
      f.set_user_metadata fsPrims header_size fs M = some (true, fs1, f1) ∧
      f1.get_user_metadata fsPrims header_size fs1
        = some (M ++ b.drop (header_size + M.length), f2) ∧
      (b.length ≤ header_size + M.length →
        f1.get_user_metadata fsPrims header_size fs1 = some (M, f2)) := by
  obtain ⟨w1, w2, w3⟩ := FS.fwrite_spec fs (f.get_header_file fsPrims fs).1 header_size M b hM hfile
  have hMlen : 0 < M.length := List.length_pos.2 hM
  have hpad : (b ++ List.replicate (header_size - b.length) 0).take header_size
      = b.take header_size := by
    rw [List.take_append_of_le_length hsize]
  rw [hpad] at w2
  have hexist : ∀ q, fsPrims.file_exist
        (fs.fwrite (f.get_header_file fsPrims fs).1 header_size M).2 q
      = fsPrims.file_exist fs q := by
    intro q
    by_cases hq : q = (f.get_header_file fsPrims fs).1
    · subst hq
      simp only [fsPrims_file_exist, FS.file_exist, w2, hfile, Option.isSome_some]
    · simp only [fsPrims_file_exist, FS.file_exist, w3 q hq]
  have hagain := get_header_file_again fs
    (fs.fwrite (f.get_header_file fsPrims fs).1 header_size M).2 f hexist
  have hset : f.set_user_metadata fsPrims header_size fs M
      = some (true, (fs.fwrite (f.get_header_file fsPrims fs).1 header_size M).2,
          (f.get_header_file fsPrims fs).2) := by
    unfold safs_file.set_user_metadata
    have e1 : fsPrims.file_exist fs (f.get_header_file fsPrims fs).1 = true := by
      simp only [fsPrims_file_exist, FS.file_exist, hfile, Option.isSome_some]
    have e2 : fsPrims.fopen_rw fs (f.get_header_file fsPrims fs).1 = true := by
      simp only [fsPrims_fopen_rw, FS.is_file, hfile]
    have e3 : (fsPrims.fwrite fs (f.get_header_file fsPrims fs).1 header_size M).1 = 1 := w1
    have e0 : fsPrims.fwrite = FS.fwrite := rfl
    simp only [e1, e2, e3, Bool.not_true, Bool.false_eq_true, if_false, ne_eq,
      not_true_eq_false]
    rfl
  have hlen : (b.take header_size ++ M ++ b.drop (header_size + M.length)).length
      = header_size + M.length + (b.length - (header_size + M.length)) := by
    simp only [List.length_append, List.length_take, List.length_drop, Nat.min_eq_left hsize]
  have hget : ((f.get_header_file fsPrims fs).2).get_user_metadata fsPrims header_size
        (fs.fwrite (f.get_header_file fsPrims fs).1 header_size M).2
      = some (M ++ b.drop (header_size + M.length),
          ((f.get_header_file fsPrims fs).2.get_header_file fsPrims
            (fs.fwrite (f.get_header_file fsPrims fs).1 header_size M).2).2) := by
    unfold safs_file.get_user_metadata
    simp only [hagain]
    have e1 : fsPrims.file_exist (fs.fwrite (f.get_header_file fsPrims fs).1 header_size M).2
        (f.get_header_file fsPrims fs).1 = true := by
      simp only [fsPrims_file_exist, FS.file_exist, w2, Option.isSome_some]
    have e2 : fsPrims.get_size (fs.fwrite (f.get_header_file fsPrims fs).1 header_size M).2
        (f.get_header_file fsPrims fs).1
        = ((header_size + M.length + (b.length - (header_size + M.length)) : Nat) : Int) := by
      simp only [fsPrims_get_size, FS.get_size, w2, hlen]
    have e3 : fsPrims.fopen_r (fs.fwrite (f.get_header_file fsPrims fs).1 header_size M).2
        (f.get_header_file fsPrims fs).1 = true := by
      simp only [fsPrims_fopen_r, FS.is_file, w2]
    have e4 : ¬ (((header_size + M.length + (b.length - (header_size + M.length)) : Nat) : Int)
        < (header_size : Int)) := by omega
    have e5 : ¬ (((header_size + M.length + (b.length - (header_size + M.length)) : Nat) : Int)
        = (header_size : Int)) := by omega
    have e6 : (((header_size + M.length + (b.length - (header_size + M.length)) : Nat) : Int)
        - (header_size : Int)).toNat = M.length + (b.length - (header_size + M.length)) := by
      omega
    have e7 : fsPrims.fread (fs.fwrite (f.get_header_file fsPrims fs).1 header_size M).2
        (f.get_header_file fsPrims fs).1 header_size
        (M.length + (b.length - (header_size + M.length)))
        = some (M ++ b.drop (header_size + M.length)) := by
      simp only [fsPrims_fread, FS.fread, w2, hlen]
      have c1 : ¬ (M.length + (b.length - (header_size + M.length)) = 0 ∨
          header_size + M.length + (b.length - (header_size + M.length))
            < header_size + (M.length + (b.length - (header_size + M.length)))) := by omega
      simp only [c1, if_false, Option.some.injEq]
      have hd : (b.take header_size ++ M ++ b.drop (header_size + M.length)).drop header_size
          = M ++ b.drop (header_size + M.length) := by
        rw [List.append_assoc, List.drop_append_of_le_length (by simp [hsize])]
        rw [List.drop_of_length_le (by simp)]
        simp
      rw [hd]
      apply List.take_of_length_le
      simp
    simp only [e1, e2, e3, e4, e5, e6, e7, Bool.not_true, Bool.false_eq_true, if_false]
  refine ⟨_, _, _, hset, hget, ?_⟩
  intro hshort
  rw [hget, List.drop_of_length_le (by omega)]
  simp

theorem C6_set_then_get_user_metadata_witness :
    ([9, 8, 7, 6] : List UInt8) ≠ [] ∧
    fsTwo.node ((safs_file.init conf2 "M").get_header_file fsPrims fsTwo).1
      = some (.file [7, 7, 7, 7, 1, 2, 3]) ∧
    4 ≤ ([7, 7, 7, 7, 1, 2, 3] : List UInt8).length ∧
    ∃ (fs1 : FS) (f1 f2 : safs_file),
      (safs_file.init conf2 "M").set_user_metadata fsPrims 4 fsTwo [9, 8, 7, 6]
        = some (true, fs1, f1) ∧
      f1.get_user_metadata fsPrims 4 fs1
        = some ([9, 8, 7, 6] ++ ([7, 7, 7, 7, 1, 2, 3] : List UInt8).drop
            (4 + ([9, 8, 7, 6] : List UInt8).length), f2) ∧
      (([7, 7, 7, 7, 1, 2, 3] : List UInt8).length ≤ 4 + ([9, 8, 7, 6] : List UInt8).length →
        f1.get_user_metadata fsPrims 4 fs1 = some ([9, 8, 7, 6], f2)) :=
  ⟨by decide, by decide, by decide,
    C6_set_then_get_user_metadata fsTwo (safs_file.init conf2 "M") 4 [9, 8, 7, 6]
      [7, 7, 7, 7, 1, 2, 3] (by decide) (by decide) (by decide)⟩

/-- With an empty blob `fwrite` transfers no item, so `set_user_metadata`
reports failure and the header file keeps the user metadata it held. -/
theorem set_user_metadata_empty_blob :
    (((safs_file.init conf2 "M").set_user_metadata fsPrims 4 fsTwo []).map (fun r => r.1))
      = some false ∧
    (((safs_file.init conf2 "M").set_user_metadata fsPrims 4 fsTwo []).bind (fun r =>
        (r.2.2.get_user_metadata fsPrims 4 r.2.1).map (fun g => g.1)))
      = some [1, 2, 3] := by
  decide

/-- C6 fails as stated: the header file holds the user metadata `[1, 2, 3]`
after a header of 4 bytes; `set_user_metadata([9])` succeeds, and
`get_user_metadata()` then returns `[9, 2, 3]`, not `[9]`. -/
theorem C6_shorter_blob_counterexample :
    (((safs_file.init conf2 "M").set_user_metadata fsPrims 4 fsTwo [9]).map (fun r => r.1))
      = some true ∧
    (((safs_file.init conf2 "M").set_user_metadata fsPrims 4 fsTwo [9]).bind (fun r =>
        (r.2.2.get_user_metadata fsPrims 4 r.2.1).map (fun g => g.1)))
      = some [9, 2, 3] := by
  decide

end safs

namespace safs

/-! ## First fragments within a group of files of the random-rotation strategy -/

theorem rand_rotate_add_file_num_files {ρ : Type} (S : Shuffler ρ)
    (g : rand_rotate_file_group) (r : ρ) :
    (rand_rotate_file_group.add_file S g r).2.1.num_files = g.num_files + 1 := by
  unfold rand_rotate_file_group.add_file
  simp only
  split <;> rfl

theorem rand_rotate_after_num_files {ρ : Type} (S : Shuffler ρ) (r : ρ) (n k : Nat) :
    (rand_rotate_file_group.after S (rand_rotate_file_group.init S r n) k).1.num_files = k := by
  induction k with
  | zero => rfl
  | succ k ih =>
    show (rand_rotate_file_group.add_file S _ _).2.1.num_files = k + 1
    rw [rand_rotate_add_file_num_files, ih]

theorem getD_append_left {α : Type} (l1 l2 : List α) (d : α) (i : Nat) (h : i < l1.length) :
    (l1 ++ l2).getD i d = l1.getD i d := by
  simp [List.getD_eq_getElem?_getD, List.getElem?_append_left h]

/-- A call of `add_file` keeps the base permutations and rotation lists it
already holds; it only appends. -/
theorem rand_rotate_add_file_keeps {ρ : Type} (S : Shuffler ρ)
    (g : rand_rotate_file_group) (r : ρ) :
    g.base_permutes.length ≤ (rand_rotate_file_group.add_file S g r).2.1.base_permutes.length ∧
    g.rand_rotates.length ≤ (rand_rotate_file_group.add_file S g r).2.1.rand_rotates.length ∧
    (∀ i < g.base_permutes.length,
      (rand_rotate_file_group.add_file S g r).2.1.base_permutes.getD i []
        = g.base_permutes.getD i []) ∧
    (∀ i < g.rand_rotates.length,
      (rand_rotate_file_group.add_file S g r).2.1.rand_rotates.getD i []
        = g.rand_rotates.getD i []) := by
  unfold rand_rotate_file_group.add_file
  simp only
  split
  · refine ⟨by simp, by simp, ?_, ?_⟩
    · intro i hi
      exact getD_append_left _ _ _ _ hi
    · intro i hi
      exact getD_append_left _ _ _ _ hi
  · exact ⟨le_refl _, le_refl _, fun _ _ => rfl, fun _ _ => rfl⟩

/-- Entries held after `k` calls are still there, unchanged, after `k + m`
calls. -/
theorem rand_rotate_after_keeps {ρ : Type} (S : Shuffler ρ) (r : ρ) (n k m : Nat) :
    (rand_rotate_file_group.after S (rand_rotate_file_group.init S r n) k).1.base_permutes.length
      ≤ (rand_rotate_file_group.after S (rand_rotate_file_group.init S r n)
          (k + m)).1.base_permutes.length ∧
    (rand_rotate_file_group.after S (rand_rotate_file_group.init S r n) k).1.rand_rotates.length
      ≤ (rand_rotate_file_group.after S (rand_rotate_file_group.init S r n)
          (k + m)).1.rand_rotates.length ∧
    (∀ i < (rand_rotate_file_group.after S (rand_rotate_file_group.init S r n)
          k).1.base_permutes.length,
      (rand_rotate_file_group.after S (rand_rotate_file_group.init S r n)
          (k + m)).1.base_permutes.getD i []
        = (rand_rotate_file_group.after S (rand_rotate_file_group.init S r n)
            k).1.base_permutes.getD i []) ∧
    (∀ i < (rand_rotate_file_group.after S (rand_rotate_file_group.init S r n)
          k).1.rand_rotates.length,
      (rand_rotate_file_group.after S (rand_rotate_file_group.init S r n)
          (k + m)).1.rand_rotates.getD i []
        = (rand_rotate_file_group.after S (rand_rotate_file_group.init S r n)
            k).1.rand_rotates.getD i []) := by
  induction m with
  | zero => exact ⟨le_refl _, le_refl _, fun _ _ => rfl, fun _ _ => rfl⟩
  | succ m ih =>
    obtain ⟨h1, h2, h3, h4⟩ := ih
    obtain ⟨a1, a2, a3, a4⟩ := rand_rotate_add_file_keeps S
      (rand_rotate_file_group.after S (rand_rotate_file_group.init S r n) (k + m)).1
      (rand_rotate_file_group.after S (rand_rotate_file_group.init S r n) (k + m)).2
    refine ⟨le_trans h1 a1, le_trans h2 a2, ?_, ?_⟩
    · intro i hi
      rw [← h3 i hi]
      exact a3 i (lt_of_lt_of_le hi h1)
    · intro i hi
      rw [← h4 i hi]
      exact a4 i (lt_of_lt_of_le hi h2)

/-- What a call of `add_file` returns, read off the group it leaves: the
base permutation and the rotation list of the group `num_files / n` of the
file. -/
theorem rand_rotate_add_file_ret {ρ : Type} (S : Shuffler ρ) (n : Nat)
    (g : rand_rotate_file_group) (r : ρ) (hg : RRInv n g) :
    g.num_files / n < (rand_rotate_file_group.add_file S g r).2.1.base_permutes.length ∧
    (rand_rotate_file_group.add_file S g r).1
      = (List.range n).map (fun i =>
          ((rand_rotate_file_group.add_file S g r).2.1.base_permutes.getD
              (g.num_files / n) []).getD
            ((((rand_rotate_file_group.add_file S g r).2.1.rand_rotates.getD
                (g.num_files / n) []).getD (g.num_files % n) 0 + i) % n) 0) := by
  have hlen := RRInv_headD_length hg
  obtain ⟨_, _, _, _, hnf⟩ := hg
  have hdiv : g.num_files / n ≤ g.base_permutes.length := Nat.div_le_of_le_mul hnf
  unfold rand_rotate_file_group.add_file
  simp only [hlen]
  by_cases hc : g.num_files / n ≥ g.base_permutes.length
  · simp only [hc, if_true, List.length_append, List.length_singleton, and_true]
    omega
  · simp only [hc, if_false, and_true]
    omega

/-- The files of one group of `n` consecutive files all read the same base
permutation `B` and the same rotation list `T`, both permutations of
`0 .. n-1`: file `g * n + j` gets `B` read from the offset `T[j]`. -/
theorem rand_rotate_group_files {ρ : Type} (S : Shuffler ρ) (hS : S.Permutes) (n : Nat)
    (hn : 0 < n) (g : Nat) (r : ρ) :
    ∃ B T : List Nat, B.Perm (List.range n) ∧ T.Perm (List.range n) ∧
      ∀ j < n, rand_rotate_file S r n (g * n + j)
        = (List.range n).map (fun i => B.getD ((T.getD j 0 + i) % n) 0) := by
  have hinv1 := RRInv_after S hS n hn r (g * n + 1)
  have hdiv : ∀ j < n, (g * n + j) / n = g := by
    intro j hj
    rw [Nat.mul_comm, Nat.mul_add_div hn, Nat.div_eq_of_lt hj, Nat.add_zero]
  have hmod : ∀ j < n, (g * n + j) % n = j := by
    intro j hj
    rw [Nat.mul_comm, Nat.mul_add_mod, Nat.mod_eq_of_lt hj]
  -- after the first file of the group the entries of index `g` exist
  have hlt : g < (rand_rotate_file_group.after S (rand_rotate_file_group.init S r n)
      (g * n + 1)).1.base_permutes.length := by
    have h := (rand_rotate_add_file_ret S n
      (rand_rotate_file_group.after S (rand_rotate_file_group.init S r n) (g * n)).1
      (rand_rotate_file_group.after S (rand_rotate_file_group.init S r n) (g * n)).2
      (RRInv_after S hS n hn r (g * n))).1
    rw [rand_rotate_after_num_files] at h
    have h0 := hdiv 0 hn
    rw [Nat.add_zero] at h0
    rw [h0] at h
    exact h
  have hlt2 : g < (rand_rotate_file_group.after S (rand_rotate_file_group.init S r n)
      (g * n + 1)).1.rand_rotates.length := by
    rw [hinv1.2.1]; exact hlt
  refine ⟨(rand_rotate_file_group.after S (rand_rotate_file_group.init S r n)
        (g * n + 1)).1.base_permutes.getD g [],
      (rand_rotate_file_group.after S (rand_rotate_file_group.init S r n)
        (g * n + 1)).1.rand_rotates.getD g [],
      getD_perm_of_forall hinv1.2.2.1 hlt, getD_perm_of_forall hinv1.2.2.2.1 hlt2, ?_⟩
  intro j hj
  have hret := (rand_rotate_add_file_ret S n
    (rand_rotate_file_group.after S (rand_rotate_file_group.init S r n) (g * n + j)).1
    (rand_rotate_file_group.after S (rand_rotate_file_group.init S r n) (g * n + j)).2
    (RRInv_after S hS n hn r (g * n + j))).2
  rw [rand_rotate_after_num_files, hdiv j hj, hmod j hj] at hret
  obtain ⟨_, _, k3, k4⟩ := rand_rotate_after_keeps S r n (g * n + 1) j
  have e3 := k3 g hlt
  have e4 := k4 g hlt2
  have hidx : g * n + 1 + j = g * n + j + 1 := by omega
  rw [hidx] at e3 e4
  unfold rand_rotate_file
  rw [hret]
  have hnext : (rand_rotate_file_group.add_file S
      (rand_rotate_file_group.after S (rand_rotate_file_group.init S r n) (g * n + j)).1
      (rand_rotate_file_group.after S (rand_rotate_file_group.init S r n) (g * n + j)).2).2
      = rand_rotate_file_group.after S (rand_rotate_file_group.init S r n) (g * n + j + 1) :=
    rfl
  rw [hnext, e3, e4]

theorem head?_map_range (n : Nat) (hn : 0 < n) {α : Type} (f : Nat → α) :
    ((List.range n).map f).head? = some (f 0) := by
  obtain ⟨m, rfl⟩ : ∃ m, n = m + 1 := ⟨n - 1, by omega⟩
  simp [List.range_succ_eq_map]

/-- C11: for every disk count `n ≥ 1` and every group index `g ≥ 0`, the `n`
permutations `rand_rotate_file_group::add_file` returns for the files
`g * n .. g * n + n - 1` of one instance have pairwise distinct first
elements, and these first elements are a rearrangement of `0 .. n-1`: within
the group every disk receives the first fragment (and so the header) exactly
once. `shuffle_disks` is assumed to return a permutation. -/
theorem C11_rand_rotate_first_fragments {ρ : Type} (S : Shuffler ρ) (hS : S.Permutes)
    (n : Nat) (hn : 1 ≤ n) (g : Nat) (r : ρ) :
    (∀ j1 < n, ∀ j2 < n, j1 ≠ j2 →
      (rand_rotate_file S r n (g * n + j1)).head?
        ≠ (rand_rotate_file S r n (g * n + j2)).head?) ∧
    ((List.range n).map (fun j => (rand_rotate_file S r n (g * n + j)).head?)).Perm
      ((List.range n).map some) := by
  obtain ⟨B, T, hB, hT, hfile⟩ := rand_rotate_group_files S hS n hn g r
  have hBlen : B.length = n := by simpa using hB.length_eq
  have hhead : ∀ j < n, (rand_rotate_file S r n (g * n + j)).head?
      = some (B.getD (T.getD j 0) 0) := by
    intro j hj
    rw [hfile j hj, head?_map_range n hn, Nat.add_zero,
      Nat.mod_eq_of_lt (perm_getD_lt hT hj)]
  have hlist : (List.range n).map (fun j => (rand_rotate_file S r n (g * n + j)).head?)
      = ((List.range n).map (fun j => B.getD (T.getD j 0) 0)).map some := by
    rw [List.map_map]
    apply List.map_congr_left
    intro j hj
    exact hhead j (List.mem_range.1 hj)
  have hpos : ((List.range n).map (fun j => B.getD (T.getD j 0) 0)).Perm (List.range n) := by
    have h := positions_perm B 0 T (by rw [hBlen]; exact hT)
    rw [hBlen] at h
    exact h.trans hB
  have hperm : ((List.range n).map (fun j =>
      (rand_rotate_file S r n (g * n + j)).head?)).Perm ((List.range n).map some) := by
    rw [hlist]
    exact hpos.map some
  refine ⟨?_, hperm⟩
  intro j1 h1 j2 h2 hne heq
  have hnd : ((List.range n).map (fun j =>
      (rand_rotate_file S r n (g * n + j)).head?)).Nodup :=
    hperm.nodup_iff.2 ((List.nodup_range n).map (Option.some_injective _))
  exact hne (List.inj_on_of_nodup_map hnd (List.mem_range.2 h1) (List.mem_range.2 h2) heq)

theorem C11_rand_rotate_first_fragments_witness :
    rotShuffler.Permutes ∧ 1 ≤ 4 ∧
    (∀ j1 < 4, ∀ j2 < 4, j1 ≠ j2 →
      (rand_rotate_file rotShuffler 1 4 (3 * 4 + j1)).head?
        ≠ (rand_rotate_file rotShuffler 1 4 (3 * 4 + j2)).head?) ∧
    ((List.range 4).map (fun j => (rand_rotate_file rotShuffler 1 4 (3 * 4 + j)).head?)).Perm
      ((List.range 4).map some) :=
  ⟨rotShuffler_permutes, by decide,
    C11_rand_rotate_first_fragments rotShuffler rotShuffler_permutes 4 (by decide) 3 1⟩

end safs

namespace safs

/-! ## The range of `atoi` -/

/-- A value in the range of `int` is the `int` glibc returns. -/
theorem atoi_int_of_range (str : String) (h1 : -(2 ^ 31) ≤ atoi str)
    (h2 : atoi str < 2 ^ 31) : atoi_int str = atoi str := by
  unfold atoi_int to_int32
  have e1 : min (2 ^ 63 - 1) (atoi str) = atoi str := min_eq_right (by omega)
  have e2 : max (-(2 ^ 63)) (atoi str) = atoi str := max_eq_right (by omega)
  rw [e1, e2, Int.emod_eq_of_lt (by omega) (by omega)]
  omega

/-- The names of the ordinals below `2^31` are read back by the `atoi` of
glibc. -/
theorem atoi_int_itoa (n : Nat) (h : n < 2 ^ 31) : atoi_int (itoa n) = (n : Int) := by
  have hv := atoi_itoa n
  rw [atoi_int_of_range (itoa n) (by rw [hv]; omega) (by rw [hv]; omega), hv]

/-- With the `int` of glibc, the names `0` and `4294967296` are the same
ordinal: `exist` reports duplicated partition ids. -/
theorem exist_int_atoi_collision :
    atoi_int "4294967296" = 0 ∧
    (safs_file.init conf2 "M").exist fsPrimsInt fsWrap = false := by
  decide

end safs
namespace safs

theorem create_loop_int (header : List UInt8) (size : Nat) (idxs : List Nat) (is : List Nat) :
    ∀ (fs : FS) (f : safs_file),
      create_loop fsPrimsInt header size idxs is fs f
        = create_loop fsPrims header size idxs is fs f := by
  induction is with
  | nil => intro fs f; rfl
  | cons i rest ih =>
    intro fs f
    simp only [create_loop, ih]
    rfl

theorem size_loop_int (fs : FS) (ds : List part_file_info) :
    ∀ ret : Int, size_loop fsPrimsInt fs ds ret = size_loop fsPrims fs ds ret := by
  induction ds with
  | nil => intro ret; rfl
  | cons d ds ih =>
    intro ret
    simp only [size_loop, ih]
    rfl

/-- When `exist` is true with names read as mathematical integers and every
ordinal read fits an `int`, `exist` is true with the `int` of glibc. -/
theorem exist_int_of_exist (fs : FS) (f : safs_file)
    (h : f.exist fsPrims fs = true)
    (hr : ∀ d ∈ f.native_dirs,
      -(2 ^ 31) ≤ part_ordinal fsPrims fs d ∧ part_ordinal fsPrims fs d < 2 ^ 31) :
    f.exist fsPrimsInt fs = true := by
  obtain ⟨h1, h2⟩ := (exist_iff fsPrims fs f).1 h
  rw [exist_iff]
  refine ⟨fun d hd => h1 d hd, ?_⟩
  have hmap : f.native_dirs.map (part_ordinal fsPrimsInt fs)
      = f.native_dirs.map (part_ordinal fsPrims fs) := by
    apply List.map_congr_left
    intro d hd
    exact atoi_int_of_range _ (hr d hd).1 (hr d hd).2
  rw [hmap]
  exact h2

/-- The statement of C3 with the `int` of glibc for `atoi`, for rosters of
at most `2^31` disks (the disk count of the sources is an `int`). -/
theorem create_then_exist_and_size_int (image : safs_header → List UInt8) (fs : FS)
    (conf : List part_file_info) (name : String) (file_size : Nat)
    (block_size mapping_option : Int) (idxs : List Nat)
    (hn : 1 ≤ conf.length) (hmax : conf.length ≤ 2 ^ 31) (hfresh : fresh_disks fs conf name)
    (hperm : idxs.Perm (List.range conf.length))
    (himg : image (new_header file_size block_size mapping_option) ≠ []) :
    ∃ (fs1 : FS) (f1 : safs_file),
      (safs_file.init conf name).create_file fsPrimsInt image fs file_size block_size
          mapping_option idxs = some (true, fs1, f1) ∧
      f1.exist fsPrimsInt fs1 = true ∧
      f1.get_size fsPrimsInt fs1
        = some ((conf.length : Int)
            * (ROUNDUP ⌈(file_size : ℚ) / (conf.length : ℚ)⌉₊ 512 : Nat)) := by
  obtain ⟨fs1, hcreate, hcreated, _⟩ :=
    create_file_created image fs conf name file_size block_size mapping_option idxs hn hfresh
      hperm himg
  have hlen := init_native_dirs_length conf name
  have hperm2 : idxs.Perm (List.range (safs_file.init conf name).native_dirs.length) := by
    rw [hlen]; exact hperm
  have hc : ∀ i < (safs_file.init conf name).native_dirs.length,
      part_created fs1 (dir_at (safs_file.init conf name).native_dirs idxs i) i
        (image (new_header file_size block_size mapping_option))
        (size_per_disk file_size conf.length) := by
    intro i hi
    exact hcreated i (by rw [hlen] at hi; exact hi)
  obtain ⟨hex, hsize⟩ := exist_and_size_of_created fs1 (safs_file.init conf name) idxs _ _
    hperm2 hc
  have hexint : (safs_file.init conf name).exist fsPrimsInt fs1 = true := by
    apply exist_int_of_exist fs1 _ hex
    intro d hd
    obtain ⟨i, hi, rfl⟩ := mem_native_dirs_position _ idxs hperm2 d hd
    obtain ⟨_, r2, _⟩ := part_created_reads (hc i hi)
    have hord : part_ordinal fsPrims fs1
        ((safs_file.init conf name).native_dirs.getD (idxs.getD i 0)
          { file_name := [], disk_id := 0, node_id := 0 }) = (i : Int) := by
      show atoi ((part_files fsPrims fs1
        (dir_at (safs_file.init conf name).native_dirs idxs i)).headD "") = (i : Int)
      rw [r2]
      exact atoi_itoa i
    rw [hord]
    rw [hlen] at hi
    constructor <;> omega
  refine ⟨fs1, { (safs_file.init conf name) with
      header_file := dir_at (safs_file.init conf name).native_dirs idxs 0 ++ ["header"] },
    ?_, hexint, ?_⟩
  · have hcf : (safs_file.init conf name).create_file fsPrimsInt image fs file_size
        block_size mapping_option idxs
        = (safs_file.init conf name).create_file fsPrims image fs file_size block_size
            mapping_option idxs := by
      unfold safs_file.create_file
      simp only [create_loop_int]
    rw [hcf]
    exact hcreate
  · have hsz : (safs_file.init conf name).get_size fsPrimsInt fs1
        = (safs_file.init conf name).get_size fsPrims fs1 := by
      unfold safs_file.get_size
      rw [hex, hexint, size_loop_int]
    show (safs_file.init conf name).get_size fsPrimsInt fs1 = _
    rw [hsz, hsize, hlen, size_per_disk_eq file_size conf.length (by omega)]

end safs

namespace fm

/-- C10: for every `EM_matrix_store` `S` (constructed earlier, so its
`mat_id` lies below the identifier counter), the store returned by
`S.transpose()` has the same `data_id` as `S` and a `mat_id` different from
that of `S`; the transpose of the transpose has the `data_id` of `S` too. -/
theorem C10_transpose_shares_data_id (S : EM_matrix_store) (counter : Nat)
    (hS : S.mat_id < counter) :
    (S.transpose counter).1.data_id = S.data_id ∧
    (S.transpose counter).1.mat_id ≠ S.mat_id ∧
    ((S.transpose counter).1.transpose (S.transpose counter).2).1.data_id = S.data_id ∧
    ((S.transpose counter).1.transpose (S.transpose counter).2).1.mat_id ≠ S.mat_id := by
  refine ⟨rfl, ?_, rfl, ?_⟩
  · show counter ≠ S.mat_id
    omega
  · show counter + 1 ≠ S.mat_id
    omega

theorem C10_transpose_shares_data_id_witness :
    (EM_matrix_store.create 0 3 2 .L_ROW).1.mat_id < (EM_matrix_store.create 0 3 2 .L_ROW).2 ∧
    (((EM_matrix_store.create 0 3 2 .L_ROW).1.transpose 1).1.data_id
        = (EM_matrix_store.create 0 3 2 .L_ROW).1.data_id ∧
      ((EM_matrix_store.create 0 3 2 .L_ROW).1.transpose 1).1.mat_id
        ≠ (EM_matrix_store.create 0 3 2 .L_ROW).1.mat_id ∧
      (((EM_matrix_store.create 0 3 2 .L_ROW).1.transpose 1).1.transpose
          ((EM_matrix_store.create 0 3 2 .L_ROW).1.transpose 1).2).1.data_id
        = (EM_matrix_store.create 0 3 2 .L_ROW).1.data_id ∧
      (((EM_matrix_store.create 0 3 2 .L_ROW).1.transpose 1).1.transpose
          ((EM_matrix_store.create 0 3 2 .L_ROW).1.transpose 1).2).1.mat_id
        ≠ (EM_matrix_store.create 0 3 2 .L_ROW).1.mat_id) :=
  ⟨by decide, C10_transpose_shares_data_id (EM_matrix_store.create 0 3 2 .L_ROW).1 1 (by decide)⟩

end fm
